import Mathlib

/-!
Verification of the IPAM server's address-space model and allocation engine.

The TypeScript source is shallowly embedded: JavaScript strings are
`List Char`, JavaScript 32-bit integer operations (`<<`, `|`, `&`, `>>>`)
are modelled with explicit two's-complement conversions `toInt32`/`toUint32`,
IPv6 `BigInt` arithmetic is exact arithmetic on `ℕ`, and fallible code
(functions that `throw`) returns `Option`.
-/

namespace IPAM

/-- JavaScript strings are modelled as lists of characters. -/
abbrev JStr := List Char

/-! ## JavaScript 32-bit integer primitives -/

/-- `ToUint32` of ECMAScript: the value modulo `2^32`, as a natural number. -/
def toUint32 (a : Int) : ℕ := (a % (2 ^ 32 : Int)).toNat

/-- `ToInt32` of ECMAScript: the value modulo `2^32`, represented in
signed two's-complement range `[-2^31, 2^31)`. -/
def toInt32 (a : Int) : Int :=
  if a % (2 ^ 32 : Int) < 2 ^ 31 then a % (2 ^ 32 : Int) else a % (2 ^ 32 : Int) - 2 ^ 32

/-- JavaScript `a << b`: shift count is `ToUint32 b mod 32`, result signed. -/
def jsShl (a b : Int) : Int := toInt32 (a * 2 ^ (toUint32 b % 32))

/-- JavaScript `a >>> b`: unsigned right shift, result in `[0, 2^32)`. -/
def jsShrU (a b : Int) : ℕ := toUint32 a / 2 ^ (toUint32 b % 32)

/-- JavaScript `a | b`: bitwise or on the 32-bit patterns, result signed. -/
def jsOr (a b : Int) : Int := toInt32 (toUint32 a ||| toUint32 b : ℕ)

/-- JavaScript `a & b`: bitwise and on the 32-bit patterns, result signed. -/
def jsAnd (a b : Int) : Int := toInt32 (toUint32 a &&& toUint32 b : ℕ)

/-! ## Decimal digit strings (JavaScript `String(n)` / `Number(s)`) -/

/-- The character of a single decimal digit (`String(d)` for `d < 10`). -/
def digitChar (d : ℕ) : Char :=
  match d with
  | 0 => '0' | 1 => '1' | 2 => '2' | 3 => '3' | 4 => '4'
  | 5 => '5' | 6 => '6' | 7 => '7' | 8 => '8' | _ => '9'

/-- Is the character a decimal digit? -/
def isDigitCh (c : Char) : Bool := decide (48 ≤ c.toNat) && decide (c.toNat ≤ 57)

/-- Numeric value of a decimal digit character. -/
def digitVal (c : Char) : ℕ := c.toNat - 48

/-- Value of a string of decimal digits (most significant first). -/
def digitsVal (s : JStr) : ℕ := s.foldl (fun a c => 10 * a + digitVal c) 0

/-- Helper for decimal printing: digits of `n` prepended to `acc`, with
structural fuel so that the kernel can evaluate it. -/
def toDecAux : ℕ → ℕ → JStr → JStr
  | 0, _, acc => acc
  | fuel + 1, n, acc =>
    if n < 10 then digitChar n :: acc
    else toDecAux fuel (n / 10) (digitChar (n % 10) :: acc)

/-- JavaScript `String(n)` for a natural number: its decimal digits. -/
def toDec (n : ℕ) : JStr := toDecAux (n + 1) n []

/-- JavaScript `Number(s)` restricted to the string shapes reaching it in
this code base: a (possibly empty) string of decimal digits denotes its
value (`Number("") = 0`); anything else is `NaN`, modelled as `none`. -/
def jsNumber (s : JStr) : Option ℕ :=
  if s.all isDigitCh then some (digitsVal s) else none

/-! ## Splitting and joining (JavaScript `split`/`join`) -/

/-- JavaScript `s.split(sep)` for a single-character separator. -/
def splitOnChar (sep : Char) : JStr → List JStr
  | [] => [[]]
  | c :: cs =>
    if c = sep then [] :: splitOnChar sep cs
    else
      match splitOnChar sep cs with
      | [] => [[c]]
      | h :: t => (c :: h) :: t

/-- JavaScript `parts.join(sep)` for a single-character separator. -/
def joinChar (sep : Char) : List JStr → JStr
  | [] => []
  | [x] => x
  | x :: xs => x ++ sep :: joinChar sep xs

/-! ## Basic lemmas about the string primitives -/

theorem toDecAux_eq_append (fuel : ℕ) :
    ∀ (n : ℕ) (acc : JStr), toDecAux fuel n acc = toDecAux fuel n [] ++ acc := by
  induction fuel with
  | zero => intro n acc; simp [toDecAux]
  | succ fuel ih =>
    intro n acc
    rw [toDecAux]
    conv_rhs => rw [toDecAux]
    by_cases h : n < 10
    · simp [h]
    · simp only [h, if_false]
      rw [ih (n / 10) (digitChar (n % 10) :: acc), ih (n / 10) [digitChar (n % 10)]]
      simp

/-- Any fuel at least the digit count gives the same result; `10 ^ fuel > n`
is a convenient sufficient bound. -/
theorem toDecAux_fuel (fuel₁ : ℕ) :
    ∀ (fuel₂ n : ℕ), 0 < fuel₁ → 0 < fuel₂ → n < 10 ^ fuel₁ → n < 10 ^ fuel₂ →
      toDecAux fuel₁ n [] = toDecAux fuel₂ n [] := by
  induction fuel₁ with
  | zero =>
    intro fuel₂ n hp1 _ _ _
    omega
  | succ fuel₁ ih =>
    intro fuel₂ n _ hp2 h1 h2
    cases fuel₂ with
    | zero => omega
    | succ f =>
      rw [toDecAux, toDecAux]
      by_cases h : n < 10
      · simp [h]
      · simp only [h, if_false]
        rw [toDecAux_eq_append fuel₁, toDecAux_eq_append f]
        have hb1 : n / 10 < 10 ^ fuel₁ := by
          rw [pow_succ] at h1
          omega
        have hb2 : n / 10 < 10 ^ f := by
          rw [pow_succ] at h2
          omega
        have hf1 : 0 < fuel₁ := by
          by_contra hz
          push_neg at hz
          interval_cases fuel₁
          simp at h1
          omega
        have hf2 : 0 < f := by
          by_contra hz
          push_neg at hz
          interval_cases f
          simp at h2
          omega
        rw [ih f (n / 10) hf1 hf2 hb1 hb2]

theorem digitsVal_append (xs ys : JStr) :
    digitsVal (xs ++ ys) = ys.foldl (fun a c => 10 * a + digitVal c) (digitsVal xs) := by
  simp [digitsVal, List.foldl_append]

theorem digitVal_digitChar {d : ℕ} (h : d < 10) : digitVal (digitChar d) = d := by
  interval_cases d <;> decide

theorem isDigitCh_digitChar {d : ℕ} (h : d < 10) : isDigitCh (digitChar d) = true := by
  interval_cases d <;> decide

theorem lt_ten_pow_succ_self (n : ℕ) : n < 10 ^ (n + 1) :=
  lt_of_lt_of_le (Nat.lt_pow_self (by omega) n) (Nat.pow_le_pow_right (by omega) (by omega))

/-- `toDec` evaluated through an arbitrary sufficient fuel. -/
theorem toDec_eq_fuel {n fuel : ℕ} (hp : 0 < fuel) (h : n < 10 ^ fuel) :
    toDec n = toDecAux fuel n [] := by
  rw [toDec, toDecAux_fuel (n + 1) fuel n (by omega) hp (lt_ten_pow_succ_self n) h]

theorem toDec_digits (n : ℕ) : ∀ c ∈ toDec n, isDigitCh c = true := by
  rw [toDec]
  generalize hf : n + 1 = fuel
  have hn : n < 10 ^ fuel := hf ▸ lt_ten_pow_succ_self n
  clear hf
  induction fuel generalizing n with
  | zero =>
    interval_cases n
    simp [toDecAux]
  | succ fuel ih =>
    by_cases h : n < 10
    · rw [toDecAux]
      simp only [h, if_true, List.mem_singleton]
      rintro c rfl
      exact isDigitCh_digitChar h
    · rw [toDecAux]
      simp only [h, if_false]
      rw [toDecAux_eq_append]
      intro c hc
      rcases List.mem_append.mp hc with h1 | h2
      · refine ih (n / 10) ?_ c h1
        rw [pow_succ] at hn
        omega
      · rcases List.mem_singleton.mp h2 with rfl
        exact isDigitCh_digitChar (by omega)

theorem digitsVal_toDec (n : ℕ) : digitsVal (toDec n) = n := by
  rw [toDec]
  generalize hf : n + 1 = fuel
  have hn : n < 10 ^ fuel := hf ▸ lt_ten_pow_succ_self n
  clear hf
  induction fuel generalizing n with
  | zero =>
    interval_cases n
    simp [toDecAux, digitsVal]
  | succ fuel ih =>
    by_cases h : n < 10
    · rw [toDecAux]
      simp only [h, if_true]
      simp [digitsVal, digitVal_digitChar h]
    · rw [toDecAux]
      simp only [h, if_false]
      have hrec : n / 10 < 10 ^ fuel := by
        rw [pow_succ] at hn
        omega
      rw [toDecAux_eq_append, digitsVal_append, ih (n / 10) hrec]
      simp [digitVal_digitChar (Nat.mod_lt n (by omega))]
      omega

theorem jsNumber_toDec (n : ℕ) : jsNumber (toDec n) = some n := by
  simp [jsNumber, List.all_eq_true.mpr (toDec_digits n), digitsVal_toDec]

theorem toDec_ne_nil (n : ℕ) : toDec n ≠ [] := by
  rw [toDec, toDecAux]
  by_cases h : n < 10
  · simp [h]
  · simp only [h, if_false]
    rw [toDecAux_eq_append]
    simp

theorem not_mem_toDec_of_not_digit {c : Char} (hc : isDigitCh c = false) (n : ℕ) :
    c ∉ toDec n := by
  intro hmem
  have := toDec_digits n c hmem
  rw [hc] at this
  exact Bool.false_ne_true this

theorem splitOnChar_cons_sep (sep : Char) (rest : JStr) :
    splitOnChar sep (sep :: rest) = [] :: splitOnChar sep rest := by
  rw [splitOnChar]
  simp

/-- Splitting a joined list recovers the parts, provided none of the parts
contains the separator. -/
theorem splitOnChar_joinChar (sep : Char) :
    ∀ parts : List JStr, parts ≠ [] → (∀ p ∈ parts, sep ∉ p) →
      splitOnChar sep (joinChar sep parts) = parts := by
  have key : ∀ (p : JStr), sep ∉ p → ∀ rest : JStr,
      splitOnChar sep (p ++ rest) =
        match splitOnChar sep rest with
        | [] => [p]
        | h :: t => (p ++ h) :: t := by
    intro p hp
    induction p with
    | nil =>
      intro rest
      cases h : splitOnChar sep rest with
      | nil =>
        exfalso
        induction rest with
        | nil => simp [splitOnChar] at h
        | cons c cs ihr =>
          rw [splitOnChar] at h
          by_cases hc : c = sep
          · simp [hc] at h
          · simp only [hc, if_false] at h
            cases h2 : splitOnChar sep cs with
            | nil => exact ihr h2
            | cons a b => rw [h2] at h; simp at h
      | cons a b => simp [h]
    | cons c cs ihp =>
      intro rest
      have hcs : sep ∉ cs := fun h => hp (List.mem_cons_of_mem _ h)
      have hcne : c ≠ sep := fun h => hp (h ▸ List.mem_cons_self c cs)
      rw [List.cons_append, splitOnChar]
      simp only [hcne, if_false]
      rw [ihp hcs rest]
      cases h : splitOnChar sep rest with
      | nil => simp
      | cons a b => simp
  intro parts
  induction parts with
  | nil => intro h; exact absurd rfl h
  | cons p ps ih =>
    intro _ hall
    have hp : sep ∉ p := hall p (List.mem_cons_self _ _)
    cases ps with
    | nil =>
      show splitOnChar sep (joinChar sep [p]) = [p]
      rw [joinChar]
      have := key p hp []
      simpa [splitOnChar] using this
    | cons q qs =>
      show splitOnChar sep (p ++ sep :: joinChar sep (q :: qs)) = p :: q :: qs
      rw [key p hp (sep :: joinChar sep (q :: qs)), splitOnChar_cons_sep,
        ih (by simp) (fun r hr => hall r (List.mem_cons_of_mem _ hr))]
      simp

/-! ## Lemmas about the 32-bit conversions -/

theorem toUint32_lt (a : Int) : toUint32 a < 2 ^ 32 := by
  simp only [toUint32]
  omega

theorem toUint32_coe {n : ℕ} (h : n < 2 ^ 32) : toUint32 (n : Int) = n := by
  simp only [toUint32]
  omega

theorem toUint32_eq_emod (a : Int) : (toUint32 a : Int) = a % (2 ^ 32 : Int) := by
  simp only [toUint32]
  omega

theorem toInt32_congr {a b : Int} (h : a % (2 ^ 32 : Int) = b % (2 ^ 32 : Int)) :
    toInt32 a = toInt32 b := by
  simp only [toInt32, h]

theorem toUint32_congr {a b : Int} (h : a % (2 ^ 32 : Int) = b % (2 ^ 32 : Int)) :
    toUint32 a = toUint32 b := by
  simp only [toUint32, h]

theorem toInt32_emod (a : Int) : toInt32 a % (2 ^ 32 : Int) = a % (2 ^ 32 : Int) := by
  simp only [toInt32]
  split <;> omega

theorem toUint32_toInt32 (a : Int) : toUint32 (toInt32 a) = toUint32 a :=
  toUint32_congr (toInt32_emod a)

theorem toInt32_toUint32 (a : Int) : toInt32 (toUint32 a) = toInt32 a :=
  toInt32_congr (by rw [toUint32_eq_emod]; omega)

theorem toInt32_coe_low {n : ℕ} (h : n < 2 ^ 31) : toInt32 (n : Int) = n := by
  simp only [toInt32]
  split <;> omega

theorem toInt32_coe_high {n : ℕ} (h1 : 2 ^ 31 ≤ n) (h2 : n < 2 ^ 32) :
    toInt32 (n : Int) = (n : Int) - 2 ^ 32 := by
  simp only [toInt32]
  split <;> omega

theorem toInt32_eq_iff {a b : Int} :
    toInt32 a = toInt32 b ↔ a % (2 ^ 32 : Int) = b % (2 ^ 32 : Int) := by
  constructor
  · intro h
    rw [← toInt32_emod a, ← toInt32_emod b, h]
  · exact toInt32_congr

/-! ## Bitwise lemmas -/

theorem testBit_two_pow_mul_add {k b : ℕ} (a : ℕ) (hb : b < 2 ^ k) (j : ℕ) :
    (2 ^ k * a + b).testBit j = if j < k then b.testBit j else a.testBit (j - k) := by
  rcases lt_or_ge j k with h | h
  · simp only [if_pos h]
    rw [Nat.testBit_to_div_mod, Nat.testBit_to_div_mod]
    have h1 : 2 ^ k * a + b = b + 2 ^ j * (2 ^ (k - j) * a) := by
      rw [← mul_assoc, ← pow_add]
      have : j + (k - j) = k := by omega
      rw [this]
      ring
    rw [h1, Nat.add_mul_div_left _ _ (Nat.pos_pow_of_pos j (by omega))]
    have h2 : 2 ^ (k - j) * a = 2 * (2 ^ (k - j - 1) * a) := by
      rw [← mul_assoc]
      congr 1
      rw [← pow_succ']
      congr 1
      omega
    rw [h2, Nat.add_mul_mod_self_left]
  · simp only [if_neg (Nat.not_lt.mpr h)]
    rw [Nat.testBit_to_div_mod, Nat.testBit_to_div_mod]
    have h1 : (2 ^ k * a + b) / 2 ^ j = (2 ^ k * a + b) / 2 ^ k / 2 ^ (j - k) := by
      rw [Nat.div_div_eq_div_mul, ← pow_add]
      congr 2
      omega
    rw [h1, Nat.mul_add_div (Nat.pos_pow_of_pos k (by omega)),
      Nat.div_eq_of_lt hb, Nat.add_zero]

theorem lor_two_pow_mul_add {k b : ℕ} (a : ℕ) (hb : b < 2 ^ k) :
    2 ^ k * a ||| b = 2 ^ k * a + b := by
  apply Nat.eq_of_testBit_eq
  intro j
  rw [Nat.testBit_lor, Nat.testBit_mul_pow_two, testBit_two_pow_mul_add a hb]
  rcases lt_or_ge j k with h | h
  · simp [if_pos h, Nat.not_le.mpr h]
  · have hbj : b.testBit j = false :=
      Nat.testBit_lt_two_pow (lt_of_lt_of_le hb (Nat.pow_le_pow_right (by omega) h))
    simp [if_neg (Nat.not_lt.mpr h), h, hbj]

theorem land_two_pow_sub_one (x k : ℕ) : x &&& (2 ^ k - 1) = x % 2 ^ k := by
  exact Nat.and_pow_two_sub_one_eq_mod x k

/-! ## The IPv4 codec (`src/utils/ipUtils.ts`, `ipv4ToNumber` / `numberToIpv4`) -/

/-- `ipv4ToNumber`: split on `.`, convert each part with `Number`, require
four non-`NaN` parts, then combine with signed 32-bit shifts and ors:
`(parts[0] << 24) | (parts[1] << 16) | (parts[2] << 8) | parts[3]`.
A thrown error is modelled as `none`. -/
def ipv4ToNumber (ip : JStr) : Option Int :=
  match (splitOnChar '.' ip).map jsNumber with
  | [some a, some b, some c, some d] =>
      some (jsOr (jsOr (jsOr (jsShl a 24) (jsShl b 16)) (jsShl c 8)) d)
  | _ => none

/-- `numberToIpv4`: format the four bytes `(num >>> k) & 255` in decimal,
joined with `.`. -/
def numberToIpv4 (num : Int) : JStr :=
  joinChar '.'
    [toDec (jsShrU num 24 &&& 255),
     toDec (jsShrU num 16 &&& 255),
     toDec (jsShrU num 8 &&& 255),
     toDec (toUint32 num &&& 255)]

/-! ## Round trip of the IPv4 codec -/

theorem jsShrU_small (a s : Int) (k : ℕ) (hs : toUint32 s % 32 = k) :
    jsShrU a s = toUint32 a / 2 ^ k := by
  rw [jsShrU, hs]

theorem toUint32_jsShl_byte (s : Int) (k : ℕ) {b : ℕ} (hb : b < 2 ^ 8)
    (hs : toUint32 s % 32 = k) (hk : k ≤ 24) :
    toUint32 (jsShl (b : Int) s) = 2 ^ k * b := by
  rw [jsShl, toUint32_toInt32, hs]
  have hcast : ((b : Int) * 2 ^ k) = ((2 ^ k * b : ℕ) : Int) := by push_cast; ring
  rw [hcast, toUint32_coe]
  have h1 : 2 ^ k * b < 2 ^ k * 2 ^ 8 :=
    mul_lt_mul_of_pos_left hb (Nat.pos_pow_of_pos k (by omega))
  have h2 : (2 : ℕ) ^ k * 2 ^ 8 ≤ 2 ^ 32 := by
    rw [← pow_add]
    exact Nat.pow_le_pow_right (by omega) (by omega)
  omega

theorem lor_lt_two_pow {x y n : ℕ} (hx : x < 2 ^ n) (hy : y < 2 ^ n) : x ||| y < 2 ^ n :=
  Nat.or_lt_two_pow hx hy

theorem toUint32_jsOr (a b : Int) : toUint32 (jsOr a b) = toUint32 a ||| toUint32 b := by
  rw [jsOr, toUint32_toInt32, toUint32_coe (lor_lt_two_pow (toUint32_lt a) (toUint32_lt b))]

theorem splitOnChar_numberToIpv4 (num : Int) :
    splitOnChar '.' (numberToIpv4 num) =
      [toDec (jsShrU num 24 &&& 255),
       toDec (jsShrU num 16 &&& 255),
       toDec (jsShrU num 8 &&& 255),
       toDec (toUint32 num &&& 255)] := by
  apply splitOnChar_joinChar '.' _ (by simp)
  intro p hp
  simp only [List.mem_cons, List.not_mem_nil, or_false] at hp
  rcases hp with rfl | rfl | rfl | rfl <;>
    exact not_mem_toDec_of_not_digit (by decide) _

theorem ipv4ToNumber_of_split {ip : JStr} {a b c d : ℕ}
    (h : (splitOnChar '.' ip).map jsNumber = [some a, some b, some c, some d]) :
    ipv4ToNumber ip =
      some (jsOr (jsOr (jsOr (jsShl (a : Int) 24) (jsShl (b : Int) 16)) (jsShl (c : Int) 8)) (d : Int)) := by
  rw [ipv4ToNumber, h]

/-- The heart of the code's IPv4 round trip: parsing the formatted text of
`num` yields the signed 32-bit value congruent to `num` modulo `2^32`. -/
theorem ipv4ToNumber_numberToIpv4 (num : Int) :
    ipv4ToNumber (numberToIpv4 num) = some (toInt32 num) := by
  have h255 : (255 : ℕ) = 2 ^ 8 - 1 := by norm_num
  have hu := toUint32_lt num
  have hsplit : (splitOnChar '.' (numberToIpv4 num)).map jsNumber =
      [some (jsShrU num 24 &&& 255), some (jsShrU num 16 &&& 255),
       some (jsShrU num 8 &&& 255), some (toUint32 num &&& 255)] := by
    rw [splitOnChar_numberToIpv4]
    simp only [List.map_cons, List.map_nil, jsNumber_toDec]
  rw [ipv4ToNumber_of_split hsplit]
  simp only [Option.some.injEq]
  rw [jsShrU_small num 24 24 (by decide), jsShrU_small num 16 16 (by decide),
    jsShrU_small num 8 8 (by decide)]
  rw [h255, land_two_pow_sub_one, land_two_pow_sub_one, land_two_pow_sub_one,
    land_two_pow_sub_one]
  set u := toUint32 num with hudef
  have hb3 : u / 2 ^ 24 % 2 ^ 8 < 2 ^ 8 := Nat.mod_lt _ (by omega)
  have hb2 : u / 2 ^ 16 % 2 ^ 8 < 2 ^ 8 := Nat.mod_lt _ (by omega)
  have hb1 : u / 2 ^ 8 % 2 ^ 8 < 2 ^ 8 := Nat.mod_lt _ (by omega)
  have hb0 : u % 2 ^ 8 < 2 ^ 8 := Nat.mod_lt _ (by omega)
  -- value of the or-chain, computed on the unsigned patterns
  have o1 : toUint32 (jsOr (jsShl ((u / 2 ^ 24 % 2 ^ 8 : ℕ) : Int) 24) (jsShl ((u / 2 ^ 16 % 2 ^ 8 : ℕ) : Int) 16)) =
      2 ^ 24 * (u / 2 ^ 24 % 2 ^ 8) + 2 ^ 16 * (u / 2 ^ 16 % 2 ^ 8) := by
    rw [toUint32_jsOr, toUint32_jsShl_byte 24 24 hb3 (by decide) (by omega),
      toUint32_jsShl_byte 16 16 hb2 (by decide) (by omega)]
    have : (2 : ℕ) ^ 16 * (u / 2 ^ 16 % 2 ^ 8) < 2 ^ 24 := by omega
    exact lor_two_pow_mul_add _ this
  have o2 : toUint32 (jsOr (jsOr (jsShl ((u / 2 ^ 24 % 2 ^ 8 : ℕ) : Int) 24) (jsShl ((u / 2 ^ 16 % 2 ^ 8 : ℕ) : Int) 16))
        (jsShl ((u / 2 ^ 8 % 2 ^ 8 : ℕ) : Int) 8)) =
      2 ^ 24 * (u / 2 ^ 24 % 2 ^ 8) + 2 ^ 16 * (u / 2 ^ 16 % 2 ^ 8) + 2 ^ 8 * (u / 2 ^ 8 % 2 ^ 8) := by
    rw [toUint32_jsOr, o1, toUint32_jsShl_byte 8 8 hb1 (by decide) (by omega)]
    have hfac : 2 ^ 24 * (u / 2 ^ 24 % 2 ^ 8) + 2 ^ 16 * (u / 2 ^ 16 % 2 ^ 8) =
        2 ^ 16 * (2 ^ 8 * (u / 2 ^ 24 % 2 ^ 8) + u / 2 ^ 16 % 2 ^ 8) := by ring
    rw [hfac, lor_two_pow_mul_add _ (by omega : (2 : ℕ) ^ 8 * (u / 2 ^ 8 % 2 ^ 8) < 2 ^ 16)]
  rw [jsOr, o2, toUint32_coe (by omega : u % 2 ^ 8 < 2 ^ 32)]
  have hfac2 : 2 ^ 24 * (u / 2 ^ 24 % 2 ^ 8) + 2 ^ 16 * (u / 2 ^ 16 % 2 ^ 8) +
      2 ^ 8 * (u / 2 ^ 8 % 2 ^ 8) =
      2 ^ 8 * (2 ^ 16 * (u / 2 ^ 24 % 2 ^ 8) + 2 ^ 8 * (u / 2 ^ 16 % 2 ^ 8) + u / 2 ^ 8 % 2 ^ 8) := by
    ring
  rw [hfac2, lor_two_pow_mul_add _ (by omega : u % 2 ^ 8 < 2 ^ 8)]
  have hval : 2 ^ 8 * (2 ^ 16 * (u / 2 ^ 24 % 2 ^ 8) + 2 ^ 8 * (u / 2 ^ 16 % 2 ^ 8) +
      u / 2 ^ 8 % 2 ^ 8) + u % 2 ^ 8 = u := by
    omega
  rw [hval, hudef]
  exact toInt32_toUint32 num

/-- Notation helper: the character list of a Lean string literal. -/
def jstr (s : String) : JStr := s.data

theorem numberToIpv4_congr {a b : Int} (h : toUint32 a = toUint32 b) :
    numberToIpv4 a = numberToIpv4 b := by
  simp only [numberToIpv4, jsShrU, h]

/-- Formatting is injective on `[0, 2^32)`. -/
theorem numberToIpv4_inj {a b : ℕ} (ha : a < 2 ^ 32) (hb : b < 2 ^ 32)
    (h : numberToIpv4 (a : Int) = numberToIpv4 (b : Int)) : a = b := by
  have h1 := ipv4ToNumber_numberToIpv4 (a : Int)
  have h2 := ipv4ToNumber_numberToIpv4 (b : Int)
  rw [h, h2, Option.some.injEq] at h1
  have := toInt32_eq_iff.mp h1.symm
  omega

/-! ## Hex digit strings (JavaScript `parseInt(s, 16)` / `n.toString(16)`) -/

/-- Is the character a hexadecimal digit? -/
def isHexDigitCh (c : Char) : Bool :=
  (decide (48 ≤ c.toNat) && decide (c.toNat ≤ 57)) ||
  (decide (97 ≤ c.toNat) && decide (c.toNat ≤ 102)) ||
  (decide (65 ≤ c.toNat) && decide (c.toNat ≤ 70))

/-- Numeric value of a hexadecimal digit character. -/
def hexVal (c : Char) : ℕ :=
  if c.toNat ≤ 57 then c.toNat - 48
  else if 97 ≤ c.toNat then c.toNat - 87
  else c.toNat - 55

/-- JavaScript `parseInt(s, 16)`: parse the maximal prefix of hex digits,
ignore the rest, `NaN` (modelled `none`) if there is no leading digit. -/
def parseIntHex (s : JStr) : Option ℕ :=
  let digits := s.takeWhile isHexDigitCh
  if digits = [] then none
  else some (digits.foldl (fun a c => 16 * a + hexVal c) 0)

/-- The character of a single lowercase hex digit. -/
def hexDigitChar (d : ℕ) : Char :=
  match d with
  | 0 => '0' | 1 => '1' | 2 => '2' | 3 => '3' | 4 => '4'
  | 5 => '5' | 6 => '6' | 7 => '7' | 8 => '8' | 9 => '9'
  | 10 => 'a' | 11 => 'b' | 12 => 'c' | 13 => 'd' | 14 => 'e' | _ => 'f'

/-- Helper for hex printing, with structural fuel. -/
def toHexAux : ℕ → ℕ → JStr → JStr
  | 0, _, acc => acc
  | fuel + 1, n, acc =>
    if n < 16 then hexDigitChar n :: acc
    else toHexAux fuel (n / 16) (hexDigitChar (n % 16) :: acc)

/-- JavaScript `n.toString(16)` for a natural number: lowercase hex digits. -/
def toHex (n : ℕ) : JStr := toHexAux (n + 1) n []

/-- JavaScript `s.padStart(len, c)`. -/
def padStart (len : ℕ) (c : Char) (s : JStr) : JStr :=
  List.replicate (len - s.length) c ++ s

/-! ## The IPv6 codec (`src/utils/ipUtils.ts`) -/

/-- JavaScript `s.trim()`. -/
def jsTrim (s : JStr) : JStr :=
  ((s.dropWhile Char.isWhitespace).reverse.dropWhile Char.isWhitespace).reverse

/-- JavaScript `s.split("::")`: split on non-overlapping occurrences of two
consecutive colons, scanning left to right. -/
def splitOnCC : JStr → List JStr
  | [] => [[]]
  | [c] => [[c]]
  | c :: d :: rest =>
    if c = ':' ∧ d = ':' then [] :: splitOnCC rest
    else
      match splitOnCC (d :: rest) with
      | [] => [[c]]
      | h :: t => (c :: h) :: t

/-- JavaScript `s.includes("::")`. -/
def containsCC (s : JStr) : Bool := decide ((splitOnCC s).length ≠ 1)

/-- JavaScript `s.startsWith("::")`. -/
def startsCC (s : JStr) : Bool := decide (s.take 2 = jstr "::")

/-- JavaScript `s.endsWith("::")`. -/
def endsCC (s : JStr) : Bool := decide (s.reverse.take 2 = jstr "::")

/-- `expandIpv6`: expand an IPv6 text to its eight-group, four-digit form.
A thrown error is modelled as `none`. -/
def expandIpv6 (ip0 : JStr) : Option JStr :=
  let ip := jsTrim ip0
  if ip = [] then none
  else if ip = jstr "::" then
    some (joinChar ':' (List.replicate 8 (jstr "0000")))
  else if startsCC ip then
    let right := (splitOnChar ':' (ip.drop 2)).filter (fun p => p ≠ [])
    if 8 < right.length then none
    else some (joinChar ':'
      ((List.replicate (8 - right.length) (jstr "0000") ++ right).map (padStart 4 '0')))
  else if endsCC ip then
    let left := (splitOnChar ':' (ip.take (ip.length - 2))).filter (fun p => p ≠ [])
    if 8 < left.length then none
    else some (joinChar ':'
      ((left ++ List.replicate (8 - left.length) (jstr "0000")).map (padStart 4 '0')))
  else
    match splitOnCC ip with
    | [l, r] =>
      let left := if l ≠ [] then (splitOnChar ':' l).filter (fun p => p ≠ []) else []
      let right := if r ≠ [] then (splitOnChar ':' r).filter (fun p => p ≠ []) else []
      if 8 < left.length + right.length then none
      else some (joinChar ':'
        ((left ++ List.replicate (8 - left.length - right.length) (jstr "0000") ++ right).map
          (padStart 4 '0')))
    | [_] =>
      if containsCC ip then none
      else
        let segments := (splitOnChar ':' ip).filter (fun p => p ≠ [])
        if segments.length = 8 then
          some (joinChar ':' (segments.map (padStart 4 '0')))
        else if segments.length < 8 then
          some (joinChar ':'
            ((segments ++ List.replicate (8 - segments.length) (jstr "0000")).map
              (padStart 4 '0')))
        else none
    | _ => none

/-- `ipv6ToBigInt`: expand, require eight groups, fold the sixteen-bit
groups into a 128-bit integer with `(result << 16) | part`. -/
def ipv6ToBigInt (ip : JStr) : Option ℕ :=
  match expandIpv6 ip with
  | none => none
  | some expanded =>
    let parts := splitOnChar ':' expanded
    if parts.length ≠ 8 then none
    else parts.foldlM (fun acc p => (parseIntHex p).map (fun v => (acc <<< 16) ||| v)) 0

/-- One step of the longest-zero-run scan of `compressIpv6`: state is
`(i, currentStart, currentLength, longestStart, longestLength)`. -/
def lzrStep : (ℕ × Int × ℕ × Int × ℕ) → JStr → (ℕ × Int × ℕ × Int × ℕ)
  | (i, curStart, curLen, longStart, longLen), s =>
    if s = jstr "0" then
      if curStart = -1 then (i + 1, (i : Int), 1, longStart, longLen)
      else (i + 1, curStart, curLen + 1, longStart, longLen)
    else
      if longLen < curLen then (i + 1, -1, 0, curStart, curLen)
      else (i + 1, -1, 0, longStart, longLen)

/-- The source's scan for the longest run of `"0"` groups (leftmost on
ties), including the trailing-run check after the loop. -/
def longestZeroRun (l : List JStr) : Int × ℕ :=
  let st := l.foldl lzrStep (0, -1, 0, -1, 0)
  match st with
  | (_, curStart, curLen, longStart, longLen) =>
    if longLen < curLen then (curStart, curLen) else (longStart, longLen)

/-- The `result.replace(/^::+|::+$/g, '::')` step: a run of two or more
colons at either end of the string is collapsed to exactly `"::"`. -/
def replaceEdgeColonRuns (s : JStr) : JStr :=
  let lead := (s.takeWhile (fun c => c = ':')).length
  if 2 ≤ lead ∧ lead = s.length then jstr "::"
  else
    let pre := if 2 ≤ lead then jstr "::" else s.take lead
    let rest := s.drop lead
    let trail := (rest.reverse.takeWhile (fun c => c = ':')).length
    if 2 ≤ trail then pre ++ rest.take (rest.length - trail) ++ jstr "::"
    else pre ++ rest

/-- `compressIpv6`: expand, strip leading zeros of each group, collapse the
longest zero run (length at least two); an expansion error returns the
input unchanged (the source catches it). `NaN.toString(16)` is the string
`"NaN"`. -/
def compressIpv6 (ip : JStr) : JStr :=
  match expandIpv6 ip with
  | none => ip
  | some expanded =>
    let parts := splitOnChar ':' expanded
    let normalized := parts.map (fun p =>
      match parseIntHex p with
      | some v => toHex v
      | none => jstr "NaN")
    match longestZeroRun normalized with
    | (longStart, longLen) =>
      if 1 < longLen then
        let before := normalized.take longStart.toNat
        let after := normalized.drop (longStart.toNat + longLen)
        let result := joinChar ':' (before ++ [[]] ++ after)
        let compressed := replaceEdgeColonRuns result
        if compressed = [] then jstr "::"
        else if ¬ containsCC compressed then result
        else compressed
      else joinChar ':' normalized

/-- The expanded eight-group text of a 128-bit value, exactly as built by
the loop in `bigIntToIpv6`: groups `(num >> i*16) & 0xFFFF` for
`i = 7 .. 0`, four hex digits each, joined with `:`. -/
def fullIpv6 (num : ℕ) : JStr :=
  joinChar ':' ((List.range 8).map (fun i =>
    padStart 4 '0' (toHex ((num >>> ((7 - i) * 16)) &&& 0xFFFF))))

/-- `bigIntToIpv6`: print the eight sixteen-bit groups, four hex digits
each, then compress. The source's surrounding `try` is dead code because
`compressIpv6` already catches expansion errors. -/
def bigIntToIpv6 (num : ℕ) : JStr :=
  compressIpv6 (fullIpv6 num)

/-! ## Subnet ranges and membership (`src/utils/ipUtils.ts`) -/

inductive IpVersion
  | IPv4
  | IPv6
deriving DecidableEq

/-- Result of `getSubnetRange`: the source's fields are `start`, `end`,
`total`; `end` is a Lean keyword, so it is called `stop` here. -/
structure SubnetRangeResult where
  start : JStr
  stop : JStr
  total : Int
deriving DecidableEq

/-- `getIpv6SubnetRange`. `Math.pow(2, hostBits)` is exact for
`hostBits ≤ 53`; its float rounding for `53 < hostBits ≤ 64` is not
modelled (no claim depends on that window). -/
def getIpv6SubnetRange (networkAddress : JStr) (subnetMask : ℕ) : Option SubnetRangeResult :=
  match ipv6ToBigInt networkAddress with
  | none => none
  | some networkNum =>
    let hostBits := 128 - subnetMask
    let totalHosts : ℕ := 2 ^ hostBits
    let startNum := networkNum + 1
    let endNum := networkNum + totalHosts - 1
    if 64 < hostBits then
      let maxSafeInteger : ℕ := 9007199254740991
      let displayTotal : ℕ := if maxSafeInteger < totalHosts then maxSafeInteger else totalHosts
      some ⟨bigIntToIpv6 startNum, bigIntToIpv6 endNum, (displayTotal : Int)⟩
    else
      some ⟨bigIntToIpv6 startNum, bigIntToIpv6 endNum, (totalHosts : Int)⟩

/-- `getSubnetRange` for a mask in `[0, 32]` (the validation layer bounds
IPv4 masks by 32 before this function is reached). -/
def getSubnetRange (networkAddress : JStr) (subnetMask : ℕ) (ipVersion : IpVersion) :
    Option SubnetRangeResult :=
  if ipVersion = IpVersion.IPv6 then getIpv6SubnetRange networkAddress subnetMask
  else
    match ipv4ToNumber networkAddress with
    | none => none
    | some networkNum =>
      let hostBits := 32 - subnetMask
      let totalHosts : Int := 2 ^ hostBits
      let startNum := networkNum + 1
      let endNum := networkNum + totalHosts - 2
      some ⟨numberToIpv4 startNum, numberToIpv4 endNum, totalHosts - 2⟩

/-- `isIpv6InSubnet`: compare the two addresses shifted right by
`128 - subnetMask` bits (`BigInt` shifts are exact). -/
def isIpv6InSubnet (ip networkAddress : JStr) (subnetMask : ℕ) : Option Bool :=
  match ipv6ToBigInt ip, ipv6ToBigInt networkAddress with
  | some ipNum, some networkNum =>
    some (decide (ipNum >>> (128 - subnetMask) = networkNum >>> (128 - subnetMask)))
  | _, _ => none

/-- `isIpInSubnet`: mask comparison with
`(0xFFFFFFFF << (32 - subnetMask)) >>> 0`; the JavaScript shift count is
reduced modulo 32 inside `jsShl`. -/
def isIpInSubnet (ip networkAddress : JStr) (subnetMask : ℕ) (ipVersion : IpVersion) :
    Option Bool :=
  if ipVersion = IpVersion.IPv6 then isIpv6InSubnet ip networkAddress subnetMask
  else
    match ipv4ToNumber ip, ipv4ToNumber networkAddress with
    | some ipNum, some networkNum =>
      let mask : ℕ := jsShrU (jsShl 0xFFFFFFFF ((32 : Int) - (subnetMask : Int))) 0
      some (decide (jsAnd ipNum (mask : Int) = jsAnd networkNum (mask : Int)))
    | _, _ => none

/-! ## Hex printing and parsing lemmas -/

/-- Value of a string of hex digits, as folded by `parseIntHex`. -/
def hexDigitsVal (s : JStr) : ℕ := s.foldl (fun a c => 16 * a + hexVal c) 0

theorem hexVal_hexDigitChar {d : ℕ} (h : d < 16) : hexVal (hexDigitChar d) = d := by
  interval_cases d <;> decide

theorem isHexDigitCh_hexDigitChar {d : ℕ} (h : d < 16) : isHexDigitCh (hexDigitChar d) = true := by
  interval_cases d <;> decide

theorem toHexAux_eq_append (fuel : ℕ) :
    ∀ (n : ℕ) (acc : JStr), toHexAux fuel n acc = toHexAux fuel n [] ++ acc := by
  induction fuel with
  | zero => intro n acc; simp [toHexAux]
  | succ fuel ih =>
    intro n acc
    rw [toHexAux]
    conv_rhs => rw [toHexAux]
    by_cases h : n < 16
    · simp [h]
    · simp only [h, if_false]
      rw [ih (n / 16) (hexDigitChar (n % 16) :: acc), ih (n / 16) [hexDigitChar (n % 16)]]
      simp

theorem hexDigitsVal_append (xs ys : JStr) :
    hexDigitsVal (xs ++ ys) = ys.foldl (fun a c => 16 * a + hexVal c) (hexDigitsVal xs) := by
  simp [hexDigitsVal, List.foldl_append]

theorem lt_sixteen_pow_succ_self (n : ℕ) : n < 16 ^ (n + 1) :=
  lt_of_lt_of_le (Nat.lt_pow_self (by omega) n) (Nat.pow_le_pow_right (by omega) (by omega))

theorem toHex_digits (n : ℕ) : ∀ c ∈ toHex n, isHexDigitCh c = true := by
  rw [toHex]
  generalize hf : n + 1 = fuel
  have hn : n < 16 ^ fuel := hf ▸ lt_sixteen_pow_succ_self n
  clear hf
  induction fuel generalizing n with
  | zero =>
    interval_cases n
    simp [toHexAux]
  | succ fuel ih =>
    by_cases h : n < 16
    · rw [toHexAux]
      simp only [h, if_true, List.mem_singleton]
      rintro c rfl
      exact isHexDigitCh_hexDigitChar h
    · rw [toHexAux]
      simp only [h, if_false]
      rw [toHexAux_eq_append]
      intro c hc
      rcases List.mem_append.mp hc with h1 | h2
      · refine ih (n / 16) ?_ c h1
        rw [pow_succ] at hn
        omega
      · rcases List.mem_singleton.mp h2 with rfl
        exact isHexDigitCh_hexDigitChar (by omega)

theorem hexDigitsVal_toHex (n : ℕ) : hexDigitsVal (toHex n) = n := by
  rw [toHex]
  generalize hf : n + 1 = fuel
  have hn : n < 16 ^ fuel := hf ▸ lt_sixteen_pow_succ_self n
  clear hf
  induction fuel generalizing n with
  | zero =>
    interval_cases n
    simp [toHexAux, hexDigitsVal]
  | succ fuel ih =>
    by_cases h : n < 16
    · rw [toHexAux]
      simp only [h, if_true]
      simp [hexDigitsVal, hexVal_hexDigitChar h]
    · rw [toHexAux]
      simp only [h, if_false]
      have hrec : n / 16 < 16 ^ fuel := by
        rw [pow_succ] at hn
        omega
      rw [toHexAux_eq_append, hexDigitsVal_append, ih (n / 16) hrec]
      simp [hexVal_hexDigitChar (Nat.mod_lt n (by omega))]
      omega

theorem toHex_ne_nil (n : ℕ) : toHex n ≠ [] := by
  rw [toHex, toHexAux]
  by_cases h : n < 16
  · simp [h]
  · simp only [h, if_false]
    rw [toHexAux_eq_append]
    simp

theorem toHexAux_fuel (fuel₁ : ℕ) :
    ∀ (fuel₂ n : ℕ), 0 < fuel₁ → 0 < fuel₂ → n < 16 ^ fuel₁ → n < 16 ^ fuel₂ →
      toHexAux fuel₁ n [] = toHexAux fuel₂ n [] := by
  induction fuel₁ with
  | zero =>
    intro fuel₂ n hp1 _ _ _
    omega
  | succ fuel₁ ih =>
    intro fuel₂ n _ hp2 h1 h2
    cases fuel₂ with
    | zero => omega
    | succ f =>
      rw [toHexAux, toHexAux]
      by_cases h : n < 16
      · simp [h]
      · simp only [h, if_false]
        rw [toHexAux_eq_append fuel₁, toHexAux_eq_append f]
        have hb1 : n / 16 < 16 ^ fuel₁ := by
          rw [pow_succ] at h1
          omega
        have hb2 : n / 16 < 16 ^ f := by
          rw [pow_succ] at h2
          omega
        have hf1 : 0 < fuel₁ := by
          by_contra hz
          push_neg at hz
          interval_cases fuel₁
          simp at h1
          omega
        have hf2 : 0 < f := by
          by_contra hz
          push_neg at hz
          interval_cases f
          simp at h2
          omega
        rw [ih f (n / 16) hf1 hf2 hb1 hb2]

theorem toHex_eq_fuel {n fuel : ℕ} (hp : 0 < fuel) (h : n < 16 ^ fuel) :
    toHex n = toHexAux fuel n [] := by
  rw [toHex, toHexAux_fuel (n + 1) fuel n (by omega) hp (lt_sixteen_pow_succ_self n) h]

theorem toHexAux_length_le (fuel : ℕ) : ∀ n, (toHexAux fuel n []).length ≤ fuel := by
  induction fuel with
  | zero => intro n; simp [toHexAux]
  | succ fuel ih =>
    intro n
    rw [toHexAux]
    by_cases h : n < 16
    · simp [h]
    · simp only [h, if_false]
      rw [toHexAux_eq_append]
      have := ih (n / 16)
      simp only [List.length_append, List.length_singleton]
      omega

/-- Digit count of `toHex`: `n < 16 ^ k` gives at most `k` digits. -/
theorem toHex_length_le {n k : ℕ} (hk : 0 < k) (h : n < 16 ^ k) : (toHex n).length ≤ k := by
  rw [toHex_eq_fuel hk h]
  exact toHexAux_length_le k n

/-! ## Parsing hex groups -/

theorem hexVal_le_of_hex {c : Char} (h : isHexDigitCh c = true) : hexVal c ≤ 15 := by
  simp only [isHexDigitCh, Bool.or_eq_true, Bool.and_eq_true, decide_eq_true_eq] at h
  simp only [hexVal]
  split_ifs <;> omega

theorem parseIntHex_of_hex {g : JStr} (hne : g ≠ [])
    (hhex : ∀ c ∈ g, isHexDigitCh c = true) :
    parseIntHex g = some (hexDigitsVal g) := by
  rw [parseIntHex]
  simp only [List.takeWhile_eq_self_iff.mpr hhex, hne, if_false]
  rfl

theorem hexDigitsVal_replicate_zero (k : ℕ) (g : JStr) :
    hexDigitsVal (List.replicate k '0' ++ g) = hexDigitsVal g := by
  induction k with
  | zero => rfl
  | succ k ih =>
    rw [List.replicate_succ, List.cons_append]
    show hexDigitsVal (List.replicate k '0' ++ g) = _
    exact ih

theorem mem_padStart {len : ℕ} {c : Char} {s : JStr} {x : Char} (h : x ∈ padStart len c s) :
    x = c ∨ x ∈ s := by
  rcases List.mem_append.mp h with h1 | h1
  · exact Or.inl (List.eq_of_mem_replicate h1)
  · exact Or.inr h1

theorem padStart_ne_nil {len : ℕ} {c : Char} {s : JStr} (h : s ≠ []) :
    padStart len c s ≠ [] := by
  intro hcon
  rcases List.append_eq_nil.mp hcon with ⟨_, h2⟩
  exact h h2

theorem parseIntHex_padStart {g : JStr} (hne : g ≠ [])
    (hhex : ∀ c ∈ g, isHexDigitCh c = true) (k : ℕ) :
    parseIntHex (padStart k '0' g) = some (hexDigitsVal g) := by
  rw [padStart, parseIntHex_of_hex]
  · rw [hexDigitsVal_replicate_zero]
  · intro hcon
    rcases List.append_eq_nil.mp hcon with ⟨_, h2⟩
    exact hne h2
  · intro c hc
    rcases List.mem_append.mp hc with h1 | h1
    · rw [List.eq_of_mem_replicate h1]
      decide
    · exact hhex c h1

theorem parseIntHex_pad_toHex (k n : ℕ) : parseIntHex (padStart k '0' (toHex n)) = some n := by
  rw [parseIntHex_padStart (toHex_ne_nil n) (toHex_digits n) k, hexDigitsVal_toHex]

theorem hexDigitsVal_lt {g : JStr} (hhex : ∀ c ∈ g, isHexDigitCh c = true) :
    hexDigitsVal g < 16 ^ g.length := by
  have key : ∀ (l : JStr), (∀ c ∈ l, isHexDigitCh c = true) → ∀ a : ℕ,
      l.foldl (fun x c => 16 * x + hexVal c) a < (a + 1) * 16 ^ l.length := by
    intro l
    induction l with
    | nil =>
      intro _ a
      simp
    | cons c t ih =>
      intro hl a
      rw [List.foldl_cons]
      have hc : hexVal c ≤ 15 := hexVal_le_of_hex (hl c (List.mem_cons_self _ _))
      have ht := ih (fun x hx => hl x (List.mem_cons_of_mem _ hx)) (16 * a + hexVal c)
      have hle : (16 * a + hexVal c + 1) * 16 ^ t.length ≤ (a + 1) * 16 ^ (c :: t).length := by
        rw [List.length_cons, pow_succ]
        have h1 : 16 * a + hexVal c + 1 ≤ (a + 1) * 16 := by omega
        calc (16 * a + hexVal c + 1) * 16 ^ t.length
            ≤ (a + 1) * 16 * 16 ^ t.length := Nat.mul_le_mul_right _ h1
          _ = (a + 1) * (16 ^ t.length * 16) := by ring
      omega
  have := key g hhex 0
  simpa using this

/-! ## Values of group lists -/

/-- Value of a list of 16-bit groups, most significant first, as folded by
`ipv6ToBigInt`. -/
def groupsVal (gs : List ℕ) : ℕ := gs.foldl (fun a g => a * 2 ^ 16 + g) 0

theorem foldlM_shift16 {parts : List JStr} {vals : List ℕ}
    (h : List.Forall₂ (fun p v => parseIntHex p = some v ∧ v < 2 ^ 16) parts vals) :
    (parts.foldlM (fun acc p => (parseIntHex p).map (fun v => (acc <<< 16) ||| v)) 0 : Option ℕ) =
      some (groupsVal vals) := by
  have key : ∀ {ps : List JStr} {vs : List ℕ},
      List.Forall₂ (fun p v => parseIntHex p = some v ∧ v < 2 ^ 16) ps vs → ∀ acc : ℕ,
      (ps.foldlM (fun acc p => (parseIntHex p).map (fun v => (acc <<< 16) ||| v)) acc : Option ℕ) =
        some (vs.foldl (fun a g => a * 2 ^ 16 + g) acc) := by
    intro ps vs h
    induction h with
    | nil => intro acc; rfl
    | @cons p v ps' vs' hpv hrest ih =>
      intro acc
      rcases hpv with ⟨hp, hv⟩
      rw [List.foldlM_cons, hp]
      simp only [Option.map_some', Option.some_bind, Option.pure_def, Option.bind_eq_bind]
      have hshift : (acc <<< 16) ||| v = acc * 2 ^ 16 + v := by
        rw [Nat.shiftLeft_eq, Nat.mul_comm acc (2 ^ 16), lor_two_pow_mul_add _ hv,
          Nat.mul_comm (2 ^ 16) acc]
      rw [hshift, ih, List.foldl_cons]
  exact key h 0

/-! ## Structure of joined strings -/

theorem joinChar_cons_cons (sep : Char) (p q : JStr) (qs : List JStr) :
    joinChar sep (p :: q :: qs) = p ++ sep :: joinChar sep (q :: qs) := rfl

theorem joinChar_singleton (sep : Char) (p : JStr) : joinChar sep [p] = p := rfl

theorem joinChar_head (sep : Char) (p : JStr) (ps : List JStr) :
    ∃ t, joinChar sep (p :: ps) = p ++ t := by
  cases ps with
  | nil => exact ⟨[], by simp [joinChar_singleton]⟩
  | cons q qs => exact ⟨sep :: joinChar sep (q :: qs), rfl⟩

theorem joinChar_ne_nil {sep : Char} {p : JStr} (ps : List JStr) (hp : p ≠ []) :
    joinChar sep (p :: ps) ≠ [] := by
  rcases joinChar_head sep p ps with ⟨t, ht⟩
  rw [ht]
  intro hcon
  rcases List.append_eq_nil.mp hcon with ⟨h1, _⟩
  exact hp h1

theorem mem_joinChar {sep : Char} {parts : List JStr} {c : Char}
    (h : c ∈ joinChar sep parts) : c = sep ∨ ∃ p ∈ parts, c ∈ p := by
  induction parts with
  | nil => simp [joinChar] at h
  | cons p ps ih =>
    cases ps with
    | nil =>
      rw [joinChar_singleton] at h
      exact Or.inr ⟨p, List.mem_cons_self _ _, h⟩
    | cons q qs =>
      rw [joinChar_cons_cons] at h
      rcases List.mem_append.mp h with h1 | h1
      · exact Or.inr ⟨p, List.mem_cons_self _ _, h1⟩
      · rcases List.mem_cons.mp h1 with rfl | h2
        · exact Or.inl rfl
        · rcases ih h2 with h3 | ⟨r, hr, hcr⟩
          · exact Or.inl h3
          · exact Or.inr ⟨r, List.mem_cons_of_mem _ hr, hcr⟩

theorem joinChar_append_singleton (sep : Char) (x : JStr) :
    ∀ (l : List JStr), l ≠ [] → joinChar sep (l ++ [x]) = joinChar sep l ++ sep :: x := by
  intro l
  induction l with
  | nil => intro h; exact absurd rfl h
  | cons y l' ih =>
    intro _
    cases l' with
    | nil => rfl
    | cons z zs =>
      have ih' := ih (by simp)
      rw [List.cons_append] at ih'
      rw [List.cons_append, List.cons_append, joinChar_cons_cons sep y z (zs ++ [x]), ih',
        joinChar_cons_cons sep y z zs]
      simp

theorem joinChar_reverse (sep : Char) :
    ∀ parts : List JStr,
      (joinChar sep parts).reverse = joinChar sep ((parts.map List.reverse).reverse) := by
  intro parts
  induction parts with
  | nil => rfl
  | cons p ps ih =>
    cases ps with
    | nil => simp [joinChar_singleton]
    | cons q qs =>
      rw [joinChar_cons_cons, List.reverse_append, List.reverse_cons, List.map_cons,
        List.reverse_cons, joinChar_append_singleton sep _ _ (by simp), ← ih,
        List.append_assoc]
      rfl

theorem chain'_no_sep {sep : Char} :
    ∀ (l : JStr), (∀ a ∈ l, a ≠ sep) →
      List.Chain' (fun a b => ¬(a = sep ∧ b = sep)) l := by
  intro l
  induction l with
  | nil => intro _; exact List.chain'_nil
  | cons a t ih =>
    intro h
    cases t with
    | nil => exact List.chain'_singleton a
    | cons b t' =>
      refine List.chain'_cons.mpr ⟨?_, ih (fun x hx => h x (List.mem_cons_of_mem _ hx))⟩
      rintro ⟨ha, _⟩
      exact h a (List.mem_cons_self _ _) ha

theorem joinChar_chain {sep : Char} :
    ∀ {parts : List JStr}, (∀ p ∈ parts, p ≠ []) → (∀ p ∈ parts, sep ∉ p) →
      List.Chain' (fun a b => ¬(a = sep ∧ b = sep)) (joinChar sep parts) := by
  intro parts
  induction parts with
  | nil => intro _ _; exact List.chain'_nil
  | cons p ps ih =>
    intro hne hsep
    have hp_ne : p ≠ [] := hne p (List.mem_cons_self _ _)
    have hp_sep : sep ∉ p := hsep p (List.mem_cons_self _ _)
    cases ps with
    | nil =>
      rw [joinChar_singleton]
      exact chain'_no_sep p (fun a ha hcon => hp_sep (hcon ▸ ha))
    | cons q qs =>
      rw [joinChar_cons_cons]
      have hq_ne : q ≠ [] := hne q (List.mem_cons_of_mem _ (List.mem_cons_self _ _))
      have hq_sep : sep ∉ q := hsep q (List.mem_cons_of_mem _ (List.mem_cons_self _ _))
      refine List.chain'_append.mpr ⟨?_, ?_, ?_⟩
      · exact chain'_no_sep p (fun a ha hcon => hp_sep (hcon ▸ ha))
      · have hJ := ih (fun r hr => hne r (List.mem_cons_of_mem _ hr))
          (fun r hr => hsep r (List.mem_cons_of_mem _ hr))
        refine List.chain'_cons'.mpr ⟨?_, hJ⟩
        intro y hy
        rcases joinChar_head sep q qs with ⟨t, ht⟩
        cases hq : q with
        | nil => exact absurd hq hq_ne
        | cons c q' =>
          rw [ht, hq, List.cons_append, List.head?_cons, Option.mem_some_iff] at hy
          rintro ⟨_, hc⟩
          refine hq_sep ?_
          rw [hq]
          exact List.mem_cons.mpr (Or.inl (hy.trans hc).symm)
      · intro x hx y hy
        rintro ⟨hxsep, _⟩
        apply hp_sep
        rw [← hxsep]
        exact List.mem_of_mem_getLast? hx

theorem splitOnCC_of_chain :
    ∀ {s : JStr}, List.Chain' (fun a b => ¬(a = ':' ∧ b = ':')) s → splitOnCC s = [s] := by
  intro s
  induction s with
  | nil => intro _; rfl
  | cons c t ih =>
    intro h
    cases t with
    | nil => rfl
    | cons d t' =>
      rw [splitOnCC]
      have hcd : ¬(c = ':' ∧ d = ':') := (List.chain'_cons.mp h).1
      simp only [hcd, if_false]
      rw [ih (List.chain'_cons.mp h).2]

theorem splitOnCC_append {l : JStr}
    (hchain : List.Chain' (fun a b => ¬(a = ':' ∧ b = ':')) l)
    (hlast : l.getLast? ≠ some ':') (r : JStr) :
    splitOnCC (l ++ ':' :: ':' :: r) = l :: splitOnCC r := by
  induction l with
  | nil =>
    rw [List.nil_append, splitOnCC]
    simp
  | cons c t ih =>
    cases t with
    | nil =>
      have hc : c ≠ ':' := by simpa using hlast
      rw [List.cons_append, List.nil_append, splitOnCC]
      simp only [hc, false_and, if_false]
      rw [splitOnCC]
      simp
    | cons d t' =>
      rw [List.cons_append, List.cons_append, splitOnCC]
      have hcd : ¬(c = ':' ∧ d = ':') := (List.chain'_cons.mp hchain).1
      simp only [hcd, if_false]
      rw [← List.cons_append, ih (List.chain'_cons.mp hchain).2
        (by rwa [List.getLast?_cons_cons] at hlast)]

/-! ## Expansion of eight-group IPv6 texts -/

theorem hex_ne_colon {c : Char} (h : isHexDigitCh c = true) : c ≠ ':' := by
  rintro rfl
  simp [isHexDigitCh] at h

theorem hex_not_ws {c : Char} (h : isHexDigitCh c = true) : c.isWhitespace = false := by
  simp only [isHexDigitCh, Bool.or_eq_true, Bool.and_eq_true, decide_eq_true_eq] at h
  by_contra hw
  simp only [Bool.not_eq_false] at hw
  simp only [Char.isWhitespace, Bool.or_eq_true, decide_eq_true_eq] at hw
  rcases hw with ((rfl | rfl) | rfl) | rfl <;> revert h <;> decide

theorem jstr_cc : jstr "::" = [':', ':'] := rfl

theorem dropWhile_eq_self_of_all {p : Char → Bool} {s : JStr}
    (h : ∀ c ∈ s, p c = false) : s.dropWhile p = s := by
  cases s with
  | nil => rfl
  | cons c t =>
    rw [List.dropWhile_cons, h c (List.mem_cons_self _ _)]
    simp

theorem jsTrim_eq_self {s : JStr} (h : ∀ c ∈ s, c.isWhitespace = false) : jsTrim s = s := by
  rw [jsTrim, dropWhile_eq_self_of_all h,
    dropWhile_eq_self_of_all (fun c hc => h c (List.mem_reverse.mp hc)), List.reverse_reverse]

/-- Expanding the plain colon-joined spelling of eight hex groups pads each
group to four digits. -/
theorem expandIpv6_join_of_eight {parts : List JStr}
    (hlen8 : parts.length = 8)
    (hne : ∀ p ∈ parts, p ≠ [])
    (hhex : ∀ p ∈ parts, ∀ c ∈ p, isHexDigitCh c = true) :
    expandIpv6 (joinChar ':' parts) = some (joinChar ':' (parts.map (padStart 4 '0'))) := by
  have hcolon : ∀ p ∈ parts, ':' ∉ p := fun p hp hc => hex_ne_colon (hhex p hp ':' hc) rfl
  obtain ⟨p0, ps, rfl⟩ : ∃ p0 ps, parts = p0 :: ps := by
    cases parts with
    | nil => simp at hlen8
    | cons a b => exact ⟨a, b, rfl⟩
  obtain ⟨c, p0', rfl⟩ : ∃ c p0', p0 = c :: p0' := by
    cases hp : p0 with
    | nil => exact absurd hp (hne p0 (List.mem_cons_self _ _))
    | cons a b => exact ⟨a, b, rfl⟩
  have hchex : isHexDigitCh c = true :=
    hhex _ (List.mem_cons_self _ _) c (List.mem_cons_self _ _)
  have hcne : c ≠ ':' := hex_ne_colon hchex
  obtain ⟨t, ht⟩ := joinChar_head ':' (c :: p0') ps
  have hjoin : joinChar ':' ((c :: p0') :: ps) = c :: (p0' ++ t) := by
    rw [ht]
    rfl
  have htrim : jsTrim (joinChar ':' ((c :: p0') :: ps)) = joinChar ':' ((c :: p0') :: ps) := by
    apply jsTrim_eq_self
    intro x hx
    rcases mem_joinChar hx with rfl | ⟨p, hp, hxp⟩
    · decide
    · exact hex_not_ws (hhex p hp x hxp)
  have hne_nil : joinChar ':' ((c :: p0') :: ps) ≠ [] := joinChar_ne_nil ps (by simp)
  have hnecc : joinChar ':' ((c :: p0') :: ps) ≠ jstr "::" := by
    rw [hjoin, jstr_cc]
    intro hcon
    injection hcon with h1 _
    exact hcne h1
  have hstarts : startsCC (joinChar ':' ((c :: p0') :: ps)) = false := by
    rw [startsCC, hjoin, jstr_cc, decide_eq_false_iff_not]
    intro hcon
    rw [List.take_succ_cons] at hcon
    injection hcon with h1 _
    exact hcne h1
  have hends : endsCC (joinChar ':' ((c :: p0') :: ps)) = false := by
    rw [endsCC, decide_eq_false_iff_not, joinChar_reverse]
    set rparts := ((((c :: p0') :: ps)).map List.reverse).reverse with hrdef
    obtain ⟨q0, qs, hq⟩ : ∃ q0 qs, rparts = q0 :: qs := by
      cases hr : rparts with
      | nil =>
        exfalso
        rw [hrdef] at hr
        rw [List.reverse_eq_nil_iff, List.map_eq_nil_iff] at hr
        simp at hr
      | cons a b => exact ⟨a, b, rfl⟩
    obtain ⟨p, hpmem, hp⟩ : ∃ p ∈ (c :: p0') :: ps, q0 = p.reverse := by
      have : q0 ∈ rparts := hq ▸ List.mem_cons_self _ _
      rw [hrdef, List.mem_reverse, List.mem_map] at this
      rcases this with ⟨p, hpmem, hpeq⟩
      exact ⟨p, hpmem, hpeq.symm⟩
    obtain ⟨d, q0', hq0⟩ : ∃ d q0', q0 = d :: q0' := by
      cases hcq : q0 with
      | nil =>
        exfalso
        rw [hcq] at hp
        exact hne p hpmem (List.reverse_eq_nil_iff.mp hp.symm)
      | cons a b => exact ⟨a, b, rfl⟩
    have hdmem : d ∈ p := by
      have : d ∈ q0 := hq0 ▸ List.mem_cons_self _ _
      rw [hp, List.mem_reverse] at this
      exact this
    have hdne : d ≠ ':' := hex_ne_colon (hhex p hpmem d hdmem)
    rw [hq]
    obtain ⟨t2, ht2⟩ := joinChar_head ':' q0 qs
    rw [ht2, hq0, List.cons_append, List.take_succ_cons, jstr_cc]
    intro hcon
    injection hcon with h1 _
    exact hdne h1
  have hchain : List.Chain' (fun a b => ¬(a = ':' ∧ b = ':')) (joinChar ':' ((c :: p0') :: ps)) :=
    joinChar_chain hne hcolon
  have hsplit : splitOnCC (joinChar ':' ((c :: p0') :: ps)) = [joinChar ':' ((c :: p0') :: ps)] :=
    splitOnCC_of_chain hchain
  have hcc : containsCC (joinChar ':' ((c :: p0') :: ps)) = false := by
    rw [containsCC, hsplit]
    simp
  have hsegs : (splitOnChar ':' (joinChar ':' ((c :: p0') :: ps))).filter
      (fun p => decide (p ≠ [])) = (c :: p0') :: ps := by
    rw [splitOnChar_joinChar ':' _ (by simp) hcolon]
    exact List.filter_eq_self.mpr (fun a ha => decide_eq_true (hne a ha))
  simp only [expandIpv6]
  rw [htrim, if_neg hne_nil, if_neg hnecc, hstarts, hends]
  simp only [Bool.false_eq_true, if_false]
  rw [hsplit]
  simp only [hcc, Bool.false_eq_true, if_false, hsegs, hlen8, if_pos rfl]
  simp

theorem ipv6ToBigInt_of_expand {ip e : JStr} (h : expandIpv6 ip = some e) :
    ipv6ToBigInt ip =
      (if (splitOnChar ':' e).length ≠ 8 then none
       else (splitOnChar ':' e).foldlM
         (fun acc p => (parseIntHex p).map (fun v => (acc <<< 16) ||| v)) 0) := by
  rw [ipv6ToBigInt, h]

/-- The parsing stage of `ipv6ToBigInt` on an expanded text
`join (map (padStart 4) parts)` of eight groups. -/
theorem parse_expanded_join {parts : List JStr}
    (hlen8 : parts.length = 8)
    (hne : ∀ p ∈ parts, p ≠ [])
    (hhex : ∀ p ∈ parts, ∀ c ∈ p, isHexDigitCh c = true)
    (hlen4 : ∀ p ∈ parts, p.length ≤ 4) :
    (if (splitOnChar ':' (joinChar ':' (parts.map (padStart 4 '0')))).length ≠ 8 then none
     else (splitOnChar ':' (joinChar ':' (parts.map (padStart 4 '0')))).foldlM
       (fun acc p => (parseIntHex p).map (fun v => (acc <<< 16) ||| v)) 0) =
      some (groupsVal (parts.map hexDigitsVal)) := by
  have hpadne : ∀ q ∈ parts.map (padStart 4 '0'), q ≠ [] := by
    intro q hq
    rcases List.mem_map.mp hq with ⟨p, hp, rfl⟩
    exact padStart_ne_nil (hne p hp)
  have hpadcol : ∀ q ∈ parts.map (padStart 4 '0'), ':' ∉ q := by
    intro q hq hc
    rcases List.mem_map.mp hq with ⟨p, hp, rfl⟩
    rcases mem_padStart hc with h1 | h1
    · exact absurd h1.symm (by decide)
    · exact hex_ne_colon (hhex p hp ':' h1) rfl
  have hsplit : splitOnChar ':' (joinChar ':' (parts.map (padStart 4 '0'))) =
      parts.map (padStart 4 '0') := by
    apply splitOnChar_joinChar ':' _ _ hpadcol
    intro hcon
    rw [List.map_eq_nil_iff] at hcon
    rw [hcon] at hlen8
    simp at hlen8
  rw [hsplit]
  have hlen : (parts.map (padStart 4 '0')).length = 8 := by
    rw [List.length_map, hlen8]
  rw [if_neg (by rw [hlen]; intro hcon; exact hcon rfl)]
  apply foldlM_shift16
  rw [List.forall₂_map_left_iff, List.forall₂_map_right_iff]
  rw [List.forall₂_same]
  intro p hp
  constructor
  · exact parseIntHex_padStart (hne p hp) (hhex p hp) 4
  · have h1 : hexDigitsVal p < 16 ^ p.length := hexDigitsVal_lt (hhex p hp)
    have h2 : (16 : ℕ) ^ p.length ≤ 16 ^ 4 := Nat.pow_le_pow_right (by omega) (hlen4 p hp)
    have : (16 : ℕ) ^ 4 = 2 ^ 16 := by norm_num
    omega

/-- Parsing the plain colon-joined spelling of eight hex groups of at most
four digits yields the folded 128-bit value. -/
theorem ipv6ToBigInt_join_of_eight {parts : List JStr}
    (hlen8 : parts.length = 8)
    (hne : ∀ p ∈ parts, p ≠ [])
    (hhex : ∀ p ∈ parts, ∀ c ∈ p, isHexDigitCh c = true)
    (hlen4 : ∀ p ∈ parts, p.length ≤ 4) :
    ipv6ToBigInt (joinChar ':' parts) = some (groupsVal (parts.map hexDigitsVal)) := by
  rw [ipv6ToBigInt_of_expand (expandIpv6_join_of_eight hlen8 hne hhex)]
  exact parse_expanded_join hlen8 hne hhex hlen4

/-- The sixteen-bit group of `v` at position `i` (0 = most significant). -/
theorem group_lt (x : ℕ) : x &&& 0xFFFF < 2 ^ 16 := by
  have h := land_two_pow_sub_one x 16
  norm_num at h ⊢
  omega

theorem padStart_toHex_facts {g : ℕ} (hg : g < 2 ^ 16) :
    padStart 4 '0' (toHex g) ≠ [] ∧
    (∀ c ∈ padStart 4 '0' (toHex g), isHexDigitCh c = true) ∧
    (padStart 4 '0' (toHex g)).length = 4 := by
  have hlen : (toHex g).length ≤ 4 := by
    apply toHex_length_le (by omega)
    norm_num
    omega
  refine ⟨padStart_ne_nil (toHex_ne_nil g), ?_, ?_⟩
  · intro c hc
    rcases mem_padStart hc with rfl | h1
    · decide
    · exact toHex_digits g c h1
  · rw [padStart, List.length_append, List.length_replicate]
    omega

theorem hexDigitsVal_padStart_toHex (g : ℕ) :
    hexDigitsVal (padStart 4 '0' (toHex g)) = g := by
  rw [padStart, hexDigitsVal_replicate_zero, hexDigitsVal_toHex]

/-- `ipv6ToBigInt` is a left inverse of the expanded eight-group printer. -/
theorem ipv6ToBigInt_fullIpv6 {v : ℕ} (hv : v < 2 ^ 128) :
    ipv6ToBigInt (fullIpv6 v) = some v := by
  rw [fullIpv6]
  have hparts : ∀ p ∈ (List.range 8).map (fun i =>
      padStart 4 '0' (toHex ((v >>> ((7 - i) * 16)) &&& 0xFFFF))), p ≠ [] ∧
      (∀ c ∈ p, isHexDigitCh c = true) ∧ p.length = 4 := by
    intro p hp
    rcases List.mem_map.mp hp with ⟨i, _, rfl⟩
    exact padStart_toHex_facts (group_lt _)
  rw [ipv6ToBigInt_join_of_eight (by simp) (fun p hp => (hparts p hp).1)
    (fun p hp => (hparts p hp).2.1) (fun p hp => le_of_eq (hparts p hp).2.2)]
  congr 1
  rw [List.map_map]
  have hrange : List.range 8 = [0, 1, 2, 3, 4, 5, 6, 7] := rfl
  rw [hrange]
  simp only [List.map_cons, List.map_nil, Function.comp_apply, hexDigitsVal_padStart_toHex]
  simp only [groupsVal, List.foldl_cons, List.foldl_nil]
  have hsh : ∀ s : ℕ, v >>> s = v / 2 ^ s := fun s => Nat.shiftRight_eq_div_pow v s
  have hla : ∀ x : ℕ, x &&& 0xFFFF = x % 2 ^ 16 := by
    intro x
    have h := land_two_pow_sub_one x 16
    norm_num at h ⊢
    omega
  simp only [hsh, hla]
  norm_num
  omega

/-! ## Expansion of the `::`-compressed spellings -/

theorem not_ws_of_join {parts : List JStr}
    (hhex : ∀ p ∈ parts, ∀ c ∈ p, isHexDigitCh c = true) :
    ∀ c ∈ joinChar ':' parts, c.isWhitespace = false := by
  intro x hx
  rcases mem_joinChar hx with rfl | ⟨p, hp, hxp⟩
  · decide
  · exact hex_not_ws (hhex p hp x hxp)

theorem join_head_hex {parts : List JStr} {p0 : JStr} {ps : List JStr}
    (hps : parts = p0 :: ps) (hne : ∀ p ∈ parts, p ≠ [])
    (hhex : ∀ p ∈ parts, ∀ c ∈ p, isHexDigitCh c = true) :
    ∃ c rest, joinChar ':' parts = c :: rest ∧ isHexDigitCh c = true := by
  subst hps
  obtain ⟨c, p0', rfl⟩ : ∃ c p0', p0 = c :: p0' := by
    cases hp : p0 with
    | nil => exact absurd hp (hne p0 (List.mem_cons_self _ _))
    | cons a b => exact ⟨a, b, rfl⟩
  obtain ⟨t, ht⟩ := joinChar_head ':' (c :: p0') ps
  exact ⟨c, p0' ++ t, by rw [ht]; rfl,
    hhex _ (List.mem_cons_self _ _) c (List.mem_cons_self _ _)⟩

theorem expandIpv6_pre {rs : List JStr} (hrs : rs ≠ []) (h8 : rs.length ≤ 8)
    (hne : ∀ p ∈ rs, p ≠ []) (hhex : ∀ p ∈ rs, ∀ c ∈ p, isHexDigitCh c = true) :
    expandIpv6 (':' :: ':' :: joinChar ':' rs) =
      some (joinChar ':'
        ((List.replicate (8 - rs.length) (jstr "0000") ++ rs).map (padStart 4 '0'))) := by
  have hcolon : ∀ p ∈ rs, ':' ∉ p := fun p hp hc => hex_ne_colon (hhex p hp ':' hc) rfl
  obtain ⟨r0, rs', rfl⟩ : ∃ r0 rs', rs = r0 :: rs' := by
    cases rs with
    | nil => exact absurd rfl hrs
    | cons a b => exact ⟨a, b, rfl⟩
  have hjne : joinChar ':' (r0 :: rs') ≠ [] :=
    joinChar_ne_nil rs' (hne r0 (List.mem_cons_self _ _))
  simp only [expandIpv6]
  rw [jsTrim_eq_self]
  · rw [if_neg (by simp)]
    rw [if_neg (by
      rw [jstr_cc]
      intro hcon
      injection hcon with _ h2
      injection h2 with _ h3
      exact hjne h3)]
    have hstarts : startsCC (':' :: ':' :: joinChar ':' (r0 :: rs')) = true := by
      rw [startsCC, jstr_cc, List.take_succ_cons, List.take_succ_cons]
      simp
    rw [hstarts]
    simp only [if_true]
    have hdrop : (':' :: ':' :: joinChar ':' (r0 :: rs')).drop 2 = joinChar ':' (r0 :: rs') := rfl
    rw [hdrop, splitOnChar_joinChar ':' _ (by simp) hcolon,
      List.filter_eq_self.mpr (fun a ha => decide_eq_true (hne a ha))]
    rw [if_neg (by omega)]
  · intro c hc
    rcases List.mem_cons.mp hc with rfl | hc2
    · decide
    · rcases List.mem_cons.mp hc2 with rfl | hc3
      · decide
      · exact not_ws_of_join hhex c hc3

theorem expandIpv6_post {ls : List JStr} (hls : ls ≠ []) (h8 : ls.length ≤ 8)
    (hne : ∀ p ∈ ls, p ≠ []) (hhex : ∀ p ∈ ls, ∀ c ∈ p, isHexDigitCh c = true) :
    expandIpv6 (joinChar ':' ls ++ [':', ':']) =
      some (joinChar ':'
        ((ls ++ List.replicate (8 - ls.length) (jstr "0000")).map (padStart 4 '0'))) := by
  have hcolon : ∀ p ∈ ls, ':' ∉ p := fun p hp hc => hex_ne_colon (hhex p hp ':' hc) rfl
  obtain ⟨l0, ls', rfl⟩ : ∃ l0 ls', ls = l0 :: ls' := by
    cases ls with
    | nil => exact absurd rfl hls
    | cons a b => exact ⟨a, b, rfl⟩
  obtain ⟨c, rest, hjoin, hchex⟩ := join_head_hex rfl hne hhex
  have hcne : c ≠ ':' := hex_ne_colon hchex
  simp only [expandIpv6]
  rw [jsTrim_eq_self]
  · rw [if_neg (by rw [hjoin]; simp)]
    rw [if_neg (by
      rw [hjoin, jstr_cc, List.cons_append]
      intro hcon
      injection hcon with h1 _
      exact hcne h1)]
    have hstarts : startsCC (joinChar ':' (l0 :: ls') ++ [':', ':']) = false := by
      rw [startsCC, hjoin, jstr_cc, List.cons_append, List.take_succ_cons,
        decide_eq_false_iff_not]
      intro hcon
      injection hcon with h1 _
      exact hcne h1
    rw [hstarts]
    simp only [Bool.false_eq_true, if_false]
    have hends : endsCC (joinChar ':' (l0 :: ls') ++ [':', ':']) = true := by
      rw [endsCC, List.reverse_append, jstr_cc]
      simp
    rw [hends]
    simp only [if_true]
    have hlen : (joinChar ':' (l0 :: ls') ++ [':', ':']).length =
        (joinChar ':' (l0 :: ls')).length + 2 := by
      rw [List.length_append]
      rfl
    have htake : (joinChar ':' (l0 :: ls') ++ [':', ':']).take
        ((joinChar ':' (l0 :: ls') ++ [':', ':']).length - 2) = joinChar ':' (l0 :: ls') := by
      rw [hlen, Nat.add_sub_cancel, List.take_left]
    rw [htake, splitOnChar_joinChar ':' _ (by simp) hcolon,
      List.filter_eq_self.mpr (fun a ha => decide_eq_true (hne a ha))]
    rw [if_neg (by omega)]
  · intro x hx
    rcases List.mem_append.mp hx with h1 | h1
    · exact not_ws_of_join hhex x h1
    · rcases List.mem_cons.mp h1 with rfl | h2
      · decide
      · rcases List.mem_singleton.mp h2 with rfl
        decide

theorem join_reverse_head_hex {parts : List JStr} (hp : parts ≠ [])
    (hne : ∀ p ∈ parts, p ≠ [])
    (hhex : ∀ p ∈ parts, ∀ c ∈ p, isHexDigitCh c = true) :
    ∃ d rest, (joinChar ':' parts).reverse = d :: rest ∧ isHexDigitCh d = true := by
  rw [joinChar_reverse]
  have hrne : ∀ q ∈ (parts.map List.reverse).reverse, q ≠ [] := by
    intro q hq
    rw [List.mem_reverse, List.mem_map] at hq
    rcases hq with ⟨p, hpm, rfl⟩
    rw [ne_eq, List.reverse_eq_nil_iff]
    exact hne p hpm
  have hrhex : ∀ q ∈ (parts.map List.reverse).reverse, ∀ c ∈ q, isHexDigitCh c = true := by
    intro q hq c hc
    rw [List.mem_reverse, List.mem_map] at hq
    rcases hq with ⟨p, hpm, rfl⟩
    exact hhex p hpm c (List.mem_reverse.mp hc)
  obtain ⟨q0, qs, hq⟩ : ∃ q0 qs, (parts.map List.reverse).reverse = q0 :: qs := by
    cases hr : (parts.map List.reverse).reverse with
    | nil =>
      exfalso
      rw [List.reverse_eq_nil_iff, List.map_eq_nil_iff] at hr
      exact hp hr
    | cons a b => exact ⟨a, b, rfl⟩
  exact join_head_hex hq hrne hrhex

theorem expandIpv6_mid {ls rs : List JStr} (hls : ls ≠ []) (hrs : rs ≠ [])
    (h8 : ls.length + rs.length ≤ 8)
    (hneL : ∀ p ∈ ls, p ≠ []) (hhexL : ∀ p ∈ ls, ∀ c ∈ p, isHexDigitCh c = true)
    (hneR : ∀ p ∈ rs, p ≠ []) (hhexR : ∀ p ∈ rs, ∀ c ∈ p, isHexDigitCh c = true) :
    expandIpv6 (joinChar ':' ls ++ ':' :: ':' :: joinChar ':' rs) =
      some (joinChar ':'
        ((ls ++ List.replicate (8 - ls.length - rs.length) (jstr "0000") ++ rs).map
          (padStart 4 '0'))) := by
  have hcolL : ∀ p ∈ ls, ':' ∉ p := fun p hp hc => hex_ne_colon (hhexL p hp ':' hc) rfl
  have hcolR : ∀ p ∈ rs, ':' ∉ p := fun p hp hc => hex_ne_colon (hhexR p hp ':' hc) rfl
  obtain ⟨l0, ls', rfl⟩ : ∃ l0 ls', ls = l0 :: ls' := by
    cases ls with
    | nil => exact absurd rfl hls
    | cons a b => exact ⟨a, b, rfl⟩
  obtain ⟨r0, rs', rfl⟩ : ∃ r0 rs', rs = r0 :: rs' := by
    cases rs with
    | nil => exact absurd rfl hrs
    | cons a b => exact ⟨a, b, rfl⟩
  obtain ⟨c, rest, hjoin, hchex⟩ := join_head_hex rfl hneL hhexL
  have hcne : c ≠ ':' := hex_ne_colon hchex
  obtain ⟨d, drest, hrev, hdhex⟩ := join_reverse_head_hex (by simp) hneR hhexR
  have hdne : d ≠ ':' := hex_ne_colon hdhex
  simp only [expandIpv6]
  rw [jsTrim_eq_self]
  · rw [if_neg (by rw [hjoin]; simp)]
    rw [if_neg (by
      rw [hjoin, jstr_cc, List.cons_append]
      intro hcon
      injection hcon with h1 _
      exact hcne h1)]
    have hstarts : startsCC (joinChar ':' (l0 :: ls') ++ ':' :: ':' :: joinChar ':' (r0 :: rs')) =
        false := by
      rw [startsCC, hjoin, jstr_cc, List.cons_append, List.take_succ_cons,
        decide_eq_false_iff_not]
      intro hcon
      injection hcon with h1 _
      exact hcne h1
    rw [hstarts]
    simp only [Bool.false_eq_true, if_false]
    have hends : endsCC (joinChar ':' (l0 :: ls') ++ ':' :: ':' :: joinChar ':' (r0 :: rs')) =
        false := by
      rw [endsCC, List.reverse_append, List.reverse_cons, List.reverse_cons, hrev,
        decide_eq_false_iff_not]
      simp only [List.append_assoc, List.cons_append, List.take_succ_cons, jstr_cc]
      intro hcon
      injection hcon with h1 _
      exact hdne h1
    rw [hends]
    simp only [Bool.false_eq_true, if_false]
    have hlastL : (joinChar ':' (l0 :: ls')).getLast? ≠ some ':' := by
      obtain ⟨e, erest, hrevL, hehex⟩ := join_reverse_head_hex (by simp) hneL hhexL
      rw [← List.head?_reverse, hrevL]
      intro hcon
      rw [List.head?_cons, Option.some.injEq] at hcon
      exact hex_ne_colon hehex hcon
    have hsplit : splitOnCC (joinChar ':' (l0 :: ls') ++ ':' :: ':' :: joinChar ':' (r0 :: rs')) =
        [joinChar ':' (l0 :: ls'), joinChar ':' (r0 :: rs')] := by
      rw [splitOnCC_append (joinChar_chain hneL hcolL) hlastL,
        splitOnCC_of_chain (joinChar_chain hneR hcolR)]
    rw [hsplit]
    simp only []
    have hLne : joinChar ':' (l0 :: ls') ≠ [] :=
      joinChar_ne_nil ls' (hneL l0 (List.mem_cons_self _ _))
    have hRne : joinChar ':' (r0 :: rs') ≠ [] :=
      joinChar_ne_nil rs' (hneR r0 (List.mem_cons_self _ _))
    rw [if_pos hLne, if_pos hRne,
      splitOnChar_joinChar ':' _ (by simp) hcolL,
      splitOnChar_joinChar ':' _ (by simp) hcolR,
      List.filter_eq_self.mpr (fun a ha => decide_eq_true (hneL a ha)),
      List.filter_eq_self.mpr (fun a ha => decide_eq_true (hneR a ha))]
    rw [if_neg (by omega)]
  · intro x hx
    rcases List.mem_append.mp hx with h1 | h1
    · exact not_ws_of_join hhexL x h1
    · rcases List.mem_cons.mp h1 with rfl | h2
      · decide
      · rcases List.mem_cons.mp h2 with rfl | h3
        · decide
        · exact not_ws_of_join hhexR x h3

theorem expandIpv6_cc :
    expandIpv6 (jstr "::") = some (joinChar ':' (List.replicate 8 (jstr "0000"))) := rfl

/-! ## Well-formed IPv6 spellings and their parse values -/

theorem zero_group_good : jstr "0000" ≠ [] ∧ (∀ c ∈ jstr "0000", isHexDigitCh c = true) ∧
    (jstr "0000").length = 4 := by decide

theorem hexDigitsVal_zero_group : hexDigitsVal (jstr "0000") = 0 := rfl

/-- An explicit group in a legal spelling: nonempty, one to four hex digits. -/
def goodGroup (g : JStr) : Prop :=
  g ≠ [] ∧ (∀ c ∈ g, isHexDigitCh c = true) ∧ g.length ≤ 4

/-- The legal spellings of the claim: eight explicit groups, or a single
`::` in the middle, front or back (or alone), expanding to eight groups. -/
inductive V6Spelling
  | full (gs : List JStr)
  | mid (ls rs : List JStr)
  | pre (rs : List JStr)
  | post (ls : List JStr)
  | colcol

/-- The text of a spelling. -/
def renderV6 : V6Spelling → JStr
  | .full gs => joinChar ':' gs
  | .mid ls rs => joinChar ':' ls ++ ':' :: ':' :: joinChar ':' rs
  | .pre rs => ':' :: ':' :: joinChar ':' rs
  | .post ls => joinChar ':' ls ++ [':', ':']
  | .colcol => jstr "::"

/-- A spelling is well formed when its groups are 1–4 hex digits and the
`::` expansion yields exactly eight groups. -/
def wfV6 : V6Spelling → Prop
  | .full gs => gs.length = 8 ∧ ∀ g ∈ gs, goodGroup g
  | .mid ls rs => ls ≠ [] ∧ rs ≠ [] ∧ ls.length + rs.length ≤ 8 ∧
      (∀ g ∈ ls, goodGroup g) ∧ (∀ g ∈ rs, goodGroup g)
  | .pre rs => rs ≠ [] ∧ rs.length ≤ 8 ∧ ∀ g ∈ rs, goodGroup g
  | .post ls => ls ≠ [] ∧ ls.length ≤ 8 ∧ ∀ g ∈ ls, goodGroup g
  | .colcol => True

/-- The eight 16-bit group values a spelling denotes after zero expansion. -/
def expandedGroups : V6Spelling → List ℕ
  | .full gs => gs.map hexDigitsVal
  | .mid ls rs => ls.map hexDigitsVal ++
      List.replicate (8 - ls.length - rs.length) 0 ++ rs.map hexDigitsVal
  | .pre rs => List.replicate (8 - rs.length) 0 ++ rs.map hexDigitsVal
  | .post ls => ls.map hexDigitsVal ++ List.replicate (8 - ls.length) 0
  | .colcol => List.replicate 8 0

/-- The 128-bit value a spelling denotes. -/
def denoteV6 (s : V6Spelling) : ℕ := groupsVal (expandedGroups s)

theorem map_hexDigitsVal_replicate (m : ℕ) :
    (List.replicate m (jstr "0000")).map hexDigitsVal = List.replicate m 0 := by
  rw [List.map_replicate, hexDigitsVal_zero_group]

theorem good_of_append_replicate_left {rs : List JStr} (m : ℕ)
    (hne : ∀ p ∈ rs, p ≠ []) (hhex : ∀ p ∈ rs, ∀ c ∈ p, isHexDigitCh c = true)
    (hlen : ∀ p ∈ rs, p.length ≤ 4) :
    (∀ p ∈ List.replicate m (jstr "0000") ++ rs, p ≠ []) ∧
    (∀ p ∈ List.replicate m (jstr "0000") ++ rs, ∀ c ∈ p, isHexDigitCh c = true) ∧
    (∀ p ∈ List.replicate m (jstr "0000") ++ rs, p.length ≤ 4) := by
  refine ⟨?_, ?_, ?_⟩ <;> intro p hp <;> rcases List.mem_append.mp hp with h1 | h1 <;>
    first
      | (rw [List.eq_of_mem_replicate h1]
         first
           | exact zero_group_good.1
           | exact zero_group_good.2.1
           | exact le_of_eq zero_group_good.2.2)
      | exact hne p h1
      | exact hhex p h1
      | exact hlen p h1

/-- Every well-formed spelling parses to the value of its expanded groups. -/
theorem ipv6ToBigInt_renderV6 (s : V6Spelling) (hwf : wfV6 s) :
    ipv6ToBigInt (renderV6 s) = some (denoteV6 s) := by
  cases s with
  | full gs =>
    rcases hwf with ⟨hlen8, hgood⟩
    exact ipv6ToBigInt_join_of_eight hlen8 (fun p hp => (hgood p hp).1)
      (fun p hp => (hgood p hp).2.1) (fun p hp => (hgood p hp).2.2)
  | pre rs =>
    rcases hwf with ⟨hrs, h8, hgood⟩
    have hne : ∀ p ∈ rs, p ≠ [] := fun p hp => (hgood p hp).1
    have hhex : ∀ p ∈ rs, ∀ c ∈ p, isHexDigitCh c = true := fun p hp => (hgood p hp).2.1
    have hlen4 : ∀ p ∈ rs, p.length ≤ 4 := fun p hp => (hgood p hp).2.2
    obtain ⟨hne', hhex', hlen4'⟩ :=
      good_of_append_replicate_left (8 - rs.length) hne hhex hlen4
    rw [renderV6, ipv6ToBigInt_of_expand (expandIpv6_pre hrs h8 hne hhex),
      parse_expanded_join (by
        rw [List.length_append, List.length_replicate]
        omega) hne' hhex' hlen4']
    rw [denoteV6, expandedGroups, List.map_append, map_hexDigitsVal_replicate]
  | post ls =>
    rcases hwf with ⟨hls, h8, hgood⟩
    have hne : ∀ p ∈ ls, p ≠ [] := fun p hp => (hgood p hp).1
    have hhex : ∀ p ∈ ls, ∀ c ∈ p, isHexDigitCh c = true := fun p hp => (hgood p hp).2.1
    have hlen4 : ∀ p ∈ ls, p.length ≤ 4 := fun p hp => (hgood p hp).2.2
    have hall : (∀ p ∈ ls ++ List.replicate (8 - ls.length) (jstr "0000"), p ≠ []) ∧
        (∀ p ∈ ls ++ List.replicate (8 - ls.length) (jstr "0000"),
          ∀ c ∈ p, isHexDigitCh c = true) ∧
        (∀ p ∈ ls ++ List.replicate (8 - ls.length) (jstr "0000"), p.length ≤ 4) := by
      refine ⟨?_, ?_, ?_⟩ <;> intro p hp <;> rcases List.mem_append.mp hp with h1 | h1
      · exact hne p h1
      · rw [List.eq_of_mem_replicate h1]
        exact zero_group_good.1
      · exact hhex p h1
      · rw [List.eq_of_mem_replicate h1]
        exact zero_group_good.2.1
      · exact hlen4 p h1
      · rw [List.eq_of_mem_replicate h1]
        exact le_of_eq zero_group_good.2.2
    rw [renderV6, ipv6ToBigInt_of_expand (expandIpv6_post hls h8 hne hhex),
      parse_expanded_join (by
        rw [List.length_append, List.length_replicate]
        omega) hall.1 hall.2.1 hall.2.2]
    rw [denoteV6, expandedGroups, List.map_append, map_hexDigitsVal_replicate]
  | mid ls rs =>
    rcases hwf with ⟨hls, hrs, h8, hgoodL, hgoodR⟩
    have hneL : ∀ p ∈ ls, p ≠ [] := fun p hp => (hgoodL p hp).1
    have hhexL : ∀ p ∈ ls, ∀ c ∈ p, isHexDigitCh c = true := fun p hp => (hgoodL p hp).2.1
    have hlen4L : ∀ p ∈ ls, p.length ≤ 4 := fun p hp => (hgoodL p hp).2.2
    have hneR : ∀ p ∈ rs, p ≠ [] := fun p hp => (hgoodR p hp).1
    have hhexR : ∀ p ∈ rs, ∀ c ∈ p, isHexDigitCh c = true := fun p hp => (hgoodR p hp).2.1
    have hlen4R : ∀ p ∈ rs, p.length ≤ 4 := fun p hp => (hgoodR p hp).2.2
    obtain ⟨hneM, hhexM, hlen4M⟩ :=
      good_of_append_replicate_left (8 - ls.length - rs.length) hneR hhexR hlen4R
    have hall : (∀ p ∈ ls ++ (List.replicate (8 - ls.length - rs.length) (jstr "0000") ++ rs),
          p ≠ []) ∧
        (∀ p ∈ ls ++ (List.replicate (8 - ls.length - rs.length) (jstr "0000") ++ rs),
          ∀ c ∈ p, isHexDigitCh c = true) ∧
        (∀ p ∈ ls ++ (List.replicate (8 - ls.length - rs.length) (jstr "0000") ++ rs),
          p.length ≤ 4) := by
      refine ⟨?_, ?_, ?_⟩ <;> intro p hp <;> rcases List.mem_append.mp hp with h1 | h1
      · exact hneL p h1
      · exact hneM p h1
      · exact hhexL p h1
      · exact hhexM p h1
      · exact hlen4L p h1
      · exact hlen4M p h1
    rw [renderV6, ipv6ToBigInt_of_expand (expandIpv6_mid hls hrs h8 hneL hhexL hneR hhexR),
      List.append_assoc,
      parse_expanded_join (by
        rw [List.length_append, List.length_append, List.length_replicate]
        omega) hall.1 hall.2.1 hall.2.2]
    rw [denoteV6, expandedGroups, List.map_append, List.map_append,
      map_hexDigitsVal_replicate, List.append_assoc]
  | colcol =>
    have h1 : ipv6ToBigInt (renderV6 .colcol) = some 0 := by decide
    have h2 : denoteV6 .colcol = 0 := by decide
    rw [h1, h2]

/-! ## Prefix masks (specification side) and their arithmetic -/

/-- The prefix mask described by the specification: `p` leading one bits
followed by zero bits in a `w`-bit word. -/
def specPrefixMask (p w : ℕ) : ℕ := (2 ^ p - 1) * 2 ^ (w - p)

/-- The membership test described by the specification:
`(address & mask) == (network & mask)`. -/
def specContains (a n p w : ℕ) : Bool :=
  decide (a &&& specPrefixMask p w = n &&& specPrefixMask p w)

theorem land_mid_mask (a k s : ℕ) :
    a &&& ((2 ^ k - 1) * 2 ^ s) = a / 2 ^ s % 2 ^ k * 2 ^ s := by
  apply Nat.eq_of_testBit_eq
  intro j
  rw [Nat.testBit_land]
  have hM : ((2 ^ k - 1) * 2 ^ s) = 2 ^ s * (2 ^ k - 1) := Nat.mul_comm _ _
  have hR : a / 2 ^ s % 2 ^ k * 2 ^ s = 2 ^ s * (a / 2 ^ s % 2 ^ k) := Nat.mul_comm _ _
  rw [hM, hR, Nat.testBit_mul_pow_two, Nat.testBit_mul_pow_two,
    Nat.testBit_two_pow_sub_one, Nat.testBit_mod_two_pow]
  have hdiv : a / 2 ^ s = a >>> s := (Nat.shiftRight_eq_div_pow a s).symm
  rw [hdiv, Nat.testBit_shiftRight]
  rcases Nat.lt_or_ge j s with h | h
  · simp [Nat.not_le.mpr h]
  · have hj : s + (j - s) = j := by omega
    rw [hj]
    simp [h, Bool.and_comm, Bool.and_assoc, Bool.and_left_comm]

theorem land_mask_eq_iff_div_eq {k s a n : ℕ} (ha : a < 2 ^ (k + s)) (hn : n < 2 ^ (k + s)) :
    (a &&& ((2 ^ k - 1) * 2 ^ s) = n &&& ((2 ^ k - 1) * 2 ^ s)) ↔ a / 2 ^ s = n / 2 ^ s := by
  rw [land_mid_mask, land_mid_mask]
  have hda : a / 2 ^ s < 2 ^ k := by
    rw [Nat.div_lt_iff_lt_mul (Nat.pos_pow_of_pos s (by omega)), ← pow_add]
    exact ha
  have hdn : n / 2 ^ s < 2 ^ k := by
    rw [Nat.div_lt_iff_lt_mul (Nat.pos_pow_of_pos s (by omega)), ← pow_add]
    exact hn
  rw [Nat.mod_eq_of_lt hda, Nat.mod_eq_of_lt hdn]
  constructor
  · intro h
    exact Nat.eq_of_mul_eq_mul_right (Nat.pos_pow_of_pos s (by omega)) h
  · intro h
    rw [h]

theorem specPrefixMask_eq_sub {p : ℕ} (hp : p ≤ 32) :
    specPrefixMask p 32 = 2 ^ 32 - 2 ^ (32 - p) := by
  rw [specPrefixMask, Nat.sub_mul, ← pow_add, one_mul]
  congr 2
  omega

/-- The value of the source's mask `(0xFFFFFFFF << (32 - p)) >>> 0` for
`1 ≤ p ≤ 32` (the shift count stays in `[0, 31]`). -/
theorem js_mask_value {p : ℕ} (h1 : 1 ≤ p) (h2 : p ≤ 32) :
    jsShrU (jsShl 0xFFFFFFFF ((32 : Int) - (p : Int))) 0 = 2 ^ 32 - 2 ^ (32 - p) := by
  have hs : toUint32 ((32 : Int) - (p : Int)) = 32 - p := by
    simp only [toUint32]
    omega
  have hslt : 32 - p < 32 := by omega
  rw [jsShrU, jsShl, hs, Nat.mod_eq_of_lt hslt, toUint32_toInt32]
  have h0 : toUint32 (0 : Int) % 32 = 0 := by decide
  rw [h0, pow_zero, Nat.div_one]
  have hq1 : (1 : ℕ) ≤ 2 ^ (32 - p) := Nat.one_le_two_pow
  have hq2 : (2 : ℕ) ^ (32 - p) ≤ 2 ^ 31 := Nat.pow_le_pow_right (by omega) (by omega)
  have hcast : ((0xFFFFFFFF : Int) * 2 ^ (32 - p)) = (((2 ^ 32 - 1) * 2 ^ (32 - p) : ℕ) : Int) := by
    push_cast
    norm_num
  rw [hcast, toUint32]
  have hmod : (((2 ^ 32 - 1) * 2 ^ (32 - p) : ℕ)) % 2 ^ 32 = 2 ^ 32 - 2 ^ (32 - p) := by
    have heq : (2 ^ 32 - 1) * 2 ^ (32 - p) =
        (2 ^ 32 - 2 ^ (32 - p)) + 2 ^ 32 * (2 ^ (32 - p) - 1) := by
      generalize 2 ^ (32 - p) = q at hq1 hq2
      omega
    rw [heq, Nat.add_mul_mod_self_left, Nat.mod_eq_of_lt (by omega)]
  have : ((((2 ^ 32 - 1) * 2 ^ (32 - p) : ℕ) : Int) % 2 ^ 32) = ((2 ^ 32 - 2 ^ (32 - p) : ℕ) : Int) := by
    rw [← hmod]
    push_cast
    omega
  rw [this]
  simp

/-! ## Evaluation helpers for the membership tests -/

theorem isIpInSubnet_v4_eval {ip net : JStr} {x y : Int}
    (hx : ipv4ToNumber ip = some x) (hy : ipv4ToNumber net = some y) (p : ℕ) :
    isIpInSubnet ip net p IpVersion.IPv4 =
      some (decide (jsAnd x ((jsShrU (jsShl 0xFFFFFFFF ((32 : Int) - (p : Int))) 0 : ℕ) : Int) =
        jsAnd y ((jsShrU (jsShl 0xFFFFFFFF ((32 : Int) - (p : Int))) 0 : ℕ) : Int))) := by
  rw [isIpInSubnet, if_neg (by simp), hx, hy]

theorem isIpv6InSubnet_eval {ip net : JStr} {x y : ℕ}
    (hx : ipv6ToBigInt ip = some x) (hy : ipv6ToBigInt net = some y) (p : ℕ) :
    isIpv6InSubnet ip net p =
      some (decide (x >>> (128 - p) = y >>> (128 - p))) := by
  rw [isIpv6InSubnet, hx, hy]

theorem toInt32_nat_inj {x y : ℕ} (hx : x < 2 ^ 32) (hy : y < 2 ^ 32) :
    toInt32 (x : Int) = toInt32 (y : Int) ↔ x = y := by
  rw [toInt32_eq_iff]
  constructor
  · intro h
    have hx' : ((x : Int)) % 2 ^ 32 = (x : Int) := Int.emod_eq_of_lt (by positivity) (by exact_mod_cast hx)
    have hy' : ((y : Int)) % 2 ^ 32 = (y : Int) := Int.emod_eq_of_lt (by positivity) (by exact_mod_cast hy)
    rw [hx', hy'] at h
    exact_mod_cast h
  · intro h
    rw [h]

theorem jsAnd_nat {a m : ℕ} (ha : a < 2 ^ 32) (hm : m < 2 ^ 32) :
    jsAnd (toInt32 (a : Int)) ((m : ℕ) : Int) = toInt32 ((a &&& m : ℕ) : Int) := by
  rw [jsAnd, toUint32_toInt32, toUint32_coe ha, toUint32_coe hm]

/-- The IPv4 membership test equals the specification's mask test for
prefixes `1 ≤ p ≤ 32`, on canonically spelled addresses. -/
theorem isIpInSubnet_v4_spec {a n p : ℕ} (ha : a < 2 ^ 32) (hn : n < 2 ^ 32)
    (hp1 : 1 ≤ p) (hp2 : p ≤ 32) :
    isIpInSubnet (numberToIpv4 (a : Int)) (numberToIpv4 (n : Int)) p IpVersion.IPv4 =
      some (specContains a n p 32) := by
  rw [isIpInSubnet_v4_eval (ipv4ToNumber_numberToIpv4 (a : Int))
    (ipv4ToNumber_numberToIpv4 (n : Int)) p]
  have hmask := js_mask_value hp1 hp2
  rw [hmask]
  have hmlt : 2 ^ 32 - 2 ^ (32 - p) < 2 ^ 32 := by
    have : (1 : ℕ) ≤ 2 ^ (32 - p) := Nat.one_le_two_pow
    omega
  rw [jsAnd_nat ha hmlt, jsAnd_nat hn hmlt]
  apply congrArg
  rw [specContains, specPrefixMask_eq_sub hp2]
  rw [decide_eq_decide]
  exact toInt32_nat_inj (lt_of_le_of_lt Nat.and_le_left ha)
    (lt_of_le_of_lt Nat.and_le_left hn)

/-- On an aligned block (`n = k·2^(32-p)`), every offset `c < 2^(32-p)`
stays inside under the specification's mask test. -/
theorem specContains_block (k p c : ℕ) (hc : c < 2 ^ (32 - p)) :
    specContains (k * 2 ^ (32 - p) + c) (k * 2 ^ (32 - p)) p 32 = true := by
  rw [specContains]
  apply decide_eq_true
  rw [specPrefixMask, land_mid_mask, land_mid_mask]
  have hTpos : 0 < 2 ^ (32 - p) := Nat.pos_pow_of_pos _ (by omega)
  have e1 : (k * 2 ^ (32 - p) + c) / 2 ^ (32 - p) = k := by
    rw [Nat.mul_comm k _, Nat.mul_add_div hTpos, Nat.div_eq_of_lt hc]
    omega
  have e2 : k * 2 ^ (32 - p) / 2 ^ (32 - p) = k := Nat.mul_div_cancel _ hTpos
  rw [e1, e2]

/-! ## Claims C4, C5, C6 -/

/-- C4 (code bug): `getSubnetRange` has no special case for prefixes 31 and
32. The `/24` formula and example are as specified, but at prefix 32 the
usable count is the negative value `-1` (with `start` past `end`) instead
of a non-negative special-cased result. -/
theorem claim_C4_prefix32_underflow :
    getSubnetRange (jstr "192.168.1.0") 24 IpVersion.IPv4 =
      some ⟨jstr "192.168.1.1", jstr "192.168.1.254", 254⟩ ∧
    getSubnetRange (jstr "192.168.1.0") 32 IpVersion.IPv4 =
      some ⟨jstr "192.168.1.1", jstr "192.168.0.255", -1⟩ ∧
    getSubnetRange (jstr "192.168.1.0") 31 IpVersion.IPv4 =
      some ⟨jstr "192.168.1.1", jstr "192.168.1.0", 0⟩ ∧
    ((-1 : Int) < 0) := by
  refine ⟨by decide, by decide, by decide, by decide⟩

/-- C5 counterexample: at prefix length 0 the JavaScript shift count
`32 - 0 = 32` is reduced modulo 32, so the computed IPv4 mask is all ones
and the code returns `false` for two addresses that the specification's
zero mask would declare to be in the same subnet. -/
theorem claim_C5_counterexample :
    isIpInSubnet (jstr "0.0.0.1") (jstr "0.0.0.0") 0 IpVersion.IPv4 = some false ∧
    specContains 1 0 0 32 = true := by
  refine ⟨by decide, by decide⟩

/-- C5 (amended): the IPv4 membership test agrees with the specification's
mask test for every prefix length `1 ≤ p ≤ 32` (prefix 0 behaves as prefix
32), and the IPv6 membership test agrees with the specification's mask
test for every prefix length `0 ≤ p ≤ 128`. -/
theorem claim_C5_mask_membership (a n p a6 n6 p6 : ℕ)
    (ha : a < 2 ^ 32) (hn : n < 2 ^ 32) (hp1 : 1 ≤ p) (hp2 : p ≤ 32)
    (ha6 : a6 < 2 ^ 128) (hn6 : n6 < 2 ^ 128) (hp6 : p6 ≤ 128) :
    isIpInSubnet (numberToIpv4 (a : Int)) (numberToIpv4 (n : Int)) p IpVersion.IPv4 =
      some (specContains a n p 32) ∧
    isIpv6InSubnet (fullIpv6 a6) (fullIpv6 n6) p6 = some (specContains a6 n6 p6 128) := by
  constructor
  · exact isIpInSubnet_v4_spec ha hn hp1 hp2
  · rw [isIpv6InSubnet_eval (ipv6ToBigInt_fullIpv6 ha6) (ipv6ToBigInt_fullIpv6 hn6) p6]
    apply congrArg
    rw [specContains, specPrefixMask, decide_eq_decide,
      Nat.shiftRight_eq_div_pow, Nat.shiftRight_eq_div_pow]
    have hsum : p6 + (128 - p6) = 128 := by omega
    have ha6' : a6 < 2 ^ (p6 + (128 - p6)) := by rw [hsum]; exact ha6
    have hn6' : n6 < 2 ^ (p6 + (128 - p6)) := by rw [hsum]; exact hn6
    exact (land_mask_eq_iff_div_eq ha6' hn6').symm

/-- C5 witness: `contains("192.168.1.50", "192.168.1.0", 24, V4)` is true,
`contains(::5, ::, 64, V6)` is true, matching the specification masks. -/
theorem claim_C5_mask_membership_witness :
    (3232235826 : ℕ) < 2 ^ 32 ∧ (3232235776 : ℕ) < 2 ^ 32 ∧
    (isIpInSubnet (numberToIpv4 ((3232235826 : ℕ) : Int))
        (numberToIpv4 ((3232235776 : ℕ) : Int)) 24 IpVersion.IPv4 =
      some (specContains 3232235826 3232235776 24 32) ∧
    isIpv6InSubnet (fullIpv6 5) (fullIpv6 0) 64 = some (specContains 5 0 64 128)) :=
  ⟨by norm_num, by norm_num,
    claim_C5_mask_membership 3232235826 3232235776 24 5 0 64 (by norm_num) (by norm_num)
      (by norm_num) (by norm_num) (by norm_num) (by norm_num) (by norm_num)⟩

/-- C6 counterexample: the round trip is not the identity on `[0, 2^32)`:
at `n = 2^31` the parser returns the signed value `-2^31`, because
`ipv4ToNumber` combines the octets with the signed 32-bit `<<` and `|`. -/
theorem claim_C6_counterexample :
    ipv4ToNumber (numberToIpv4 ((2147483648 : ℕ) : Int)) = some (-2147483648) ∧
    ((-2147483648 : Int) ≠ ((2147483648 : ℕ) : Int)) := by
  refine ⟨by decide, by decide⟩

/-- C6 (amended): for every `n < 2^32`, parsing the formatted text yields
the signed 32-bit representative of `n`: the result is congruent to `n`
modulo `2^32`, and equals `n` exactly when `n < 2^31`. -/
theorem claim_C6_signed_roundtrip (n : ℕ) (h : n < 2 ^ 32) :
    ipv4ToNumber (numberToIpv4 (n : Int)) = some (toInt32 (n : Int)) ∧
    toInt32 (n : Int) % (2 ^ 32 : Int) = (n : Int) % (2 ^ 32 : Int) ∧
    (n < 2 ^ 31 → toInt32 (n : Int) = (n : Int)) :=
  ⟨ipv4ToNumber_numberToIpv4 _, toInt32_emod _, fun h31 => toInt32_coe_low h31⟩

/-- C6 witness at `n = 3232235776` (`192.168.1.0`). -/
theorem claim_C6_signed_roundtrip_witness :
    (3232235776 : ℕ) < 2 ^ 32 ∧
    (ipv4ToNumber (numberToIpv4 ((3232235776 : ℕ) : Int)) =
        some (toInt32 ((3232235776 : ℕ) : Int)) ∧
      toInt32 ((3232235776 : ℕ) : Int) % (2 ^ 32 : Int) =
        ((3232235776 : ℕ) : Int) % (2 ^ 32 : Int) ∧
      ((3232235776 : ℕ) < 2 ^ 31 → toInt32 ((3232235776 : ℕ) : Int) = ((3232235776 : ℕ) : Int))) :=
  ⟨by norm_num, claim_C6_signed_roundtrip 3232235776 (by norm_num)⟩

/-! ## Claims C7 and C8 -/

/-- C7 counterexample: `"1:2:3"` has only three groups and no `::`, so the
claim demands a format error, but `expandIpv6` pads it with trailing zero
groups and `ipv6ToBigInt` returns a value. -/
theorem claim_C7_counterexample :
    ipv6ToBigInt (jstr "1:2:3") = some 0x00010002000300000000000000000000 ∧
    ipv6ToBigInt (jstr "1:2:3") ≠ none := by
  refine ⟨by decide, by decide⟩

/-- C7 (amended): for every well-formed spelling — eight explicit groups of
1–4 hex digits, or one `::` (leading, trailing, interior or alone) whose
expansion yields exactly eight groups — `ipv6ToBigInt` returns the denoted
128-bit integer, and any two well-formed spellings with the same expanded
groups parse identically; malformed texts, however, are not all rejected. -/
theorem claim_C7_wellformed_parse (s s₂ : V6Spelling) (hwf : wfV6 s) (hwf₂ : wfV6 s₂)
    (heq : expandedGroups s₂ = expandedGroups s) :
    ipv6ToBigInt (renderV6 s) = some (denoteV6 s) ∧
    ipv6ToBigInt (renderV6 s₂) = ipv6ToBigInt (renderV6 s) := by
  refine ⟨ipv6ToBigInt_renderV6 s hwf, ?_⟩
  rw [ipv6ToBigInt_renderV6 s hwf, ipv6ToBigInt_renderV6 s₂ hwf₂, denoteV6, denoteV6, heq]

/-- C7 witness: `"::1"` and `"0:0:0:0:0:0:0:1"` both parse to 1. -/
theorem claim_C7_wellformed_parse_witness :
    wfV6 (.pre [jstr "1"]) ∧
    wfV6 (.full [jstr "0", jstr "0", jstr "0", jstr "0",
      jstr "0", jstr "0", jstr "0", jstr "1"]) ∧
    expandedGroups (.full [jstr "0", jstr "0", jstr "0", jstr "0",
      jstr "0", jstr "0", jstr "0", jstr "1"]) = expandedGroups (.pre [jstr "1"]) ∧
    (ipv6ToBigInt (renderV6 (.pre [jstr "1"])) = some (denoteV6 (.pre [jstr "1"])) ∧
     ipv6ToBigInt (renderV6 (.full [jstr "0", jstr "0", jstr "0", jstr "0",
       jstr "0", jstr "0", jstr "0", jstr "1"])) =
       ipv6ToBigInt (renderV6 (.pre [jstr "1"]))) := by
  have hwf1 : wfV6 (.pre [jstr "1"]) := by
    refine ⟨by decide, by decide, ?_⟩
    intro g hg
    rcases List.mem_singleton.mp hg with rfl
    exact ⟨by decide, by decide, by decide⟩
  have hwf2 : wfV6 (.full [jstr "0", jstr "0", jstr "0", jstr "0",
      jstr "0", jstr "0", jstr "0", jstr "1"]) := by
    refine ⟨by decide, ?_⟩
    intro g hg
    simp only [List.mem_cons, List.not_mem_nil, or_false] at hg
    rcases hg with rfl | rfl | rfl | rfl | rfl | rfl | rfl | rfl <;>
      exact ⟨by decide, by decide, by decide⟩
  have heq : expandedGroups (.full [jstr "0", jstr "0", jstr "0", jstr "0",
      jstr "0", jstr "0", jstr "0", jstr "1"]) = expandedGroups (.pre [jstr "1"]) := by
    decide
  exact ⟨hwf1, hwf2, heq, claim_C7_wellformed_parse _ _ hwf1 hwf2 heq⟩

/-- C8 (code bug): the value 1 is formatted as `":1"`, not the canonical
`"::1"`: when the longest zero run touches the start (or end) of the
address, the join produces a single colon and the edge-replacement regex
never upgrades it, so the output is not the conventional canonical form —
and the code's own parser reads `":1"` back as `2^112`, not 1. -/
theorem claim_C8_boundary_run :
    bigIntToIpv6 1 = jstr ":1" ∧
    jstr ":1" ≠ jstr "::1" ∧
    ipv6ToBigInt (jstr ":1") = some (2 ^ 112) ∧
    bigIntToIpv6 0x20010db8000000000000000000000001 = jstr "2001:db8::1" := by
  refine ⟨by decide, by decide, by decide, by decide⟩

/-! ## Address validation (`isValidIpv4`, `isValidIpv6`, `isValidIp`) -/

/-- `isValidIpv4`: the regex `^(\d{1,3}\.){3}\d{1,3}$` (exactly four
dot-separated runs of one to three digits) plus the 0–255 octet check. -/
def isValidIpv4 (ip : JStr) : Bool :=
  let parts := splitOnChar '.' ip
  decide (parts.length = 4) &&
  parts.all (fun p => (¬ p = []) && decide (p.length ≤ 3) && p.all isDigitCh) &&
  parts.all (fun p => decide (digitsVal p ≤ 255))

/-- A hex chunk of zero to four digits, as in the source's IPv6 regex. -/
def hexChunkOk (p : JStr) : Bool := decide (p.length ≤ 4) && p.all isHexDigitCh

/-- `isValidIpv6`: the source's regex (three alternatives), the single-`::`
check, and a final expansion attempt. -/
def isValidIpv6 (ip : JStr) : Bool :=
  if ip = jstr "::" then true
  else
    let ps := splitOnChar ':' ip
    let alt1 := decide (3 ≤ ps.length) && decide (ps.length ≤ 8) && ps.all hexChunkOk
    let alt2 := startsCC ip &&
      (let ps2 := splitOnChar ':' (ip.drop 2)
       decide (1 ≤ ps2.length) && decide (ps2.length ≤ 7) && ps2.all hexChunkOk)
    let alt3 := endsCC ip &&
      (let ps3 := splitOnChar ':' (ip.take (ip.length - 2))
       decide (2 ≤ ps3.length) && decide (ps3.length ≤ 7) &&
       decide (ps3.getLast? = some []) && ps3.all hexChunkOk)
    if ¬ (alt1 || alt2 || alt3) then false
    else if 1 < (splitOnCC ip).length - 1 then false
    else (expandIpv6 ip).isSome

/-- `isValidIp`: presence of `:` selects the IPv6 validator. -/
def isValidIp (ip : JStr) : Bool :=
  if ':' ∈ ip then isValidIpv6 ip else isValidIpv4 ip

/-! ## Data model (the Prisma schema's `IpAddress` and `Subnet`) -/

inductive IpStatus
  | AVAILABLE
  | ASSIGNED
  | RESERVED
  | DHCP
  | STATIC
deriving DecidableEq

/-- An `IpAddress` row: textual address (globally unique key), owning
subnet, status, and the five metadata fields. Database ids are `ℕ`. -/
structure IpRecord where
  id : ℕ
  ipAddress : JStr
  subnetId : ℕ
  status : IpStatus
  hostname : Option JStr
  macAddress : Option JStr
  deviceName : Option JStr
  assignedTo : Option JStr
  description : Option JStr
deriving DecidableEq

/-- A `Subnet` row (the fields the engine reads). -/
structure Subnet where
  id : ℕ
  networkAddress : JStr
  subnetMask : ℕ
  ipVersion : IpVersion
deriving DecidableEq

/-- The record store; `findUnique` by address is `find?` on the key. -/
abbrev IpStore := List IpRecord

/-- The optional body fields of an assignment request (absent = undefined). -/
structure IpData where
  status : Option IpStatus
  hostname : Option JStr
  macAddress : Option JStr
  deviceName : Option JStr
  assignedTo : Option JStr
  description : Option JStr
deriving DecidableEq

def emptyIpData : IpData := ⟨none, none, none, none, none, none⟩

/-- The statuses treated as occupied by the automatic allocator:
`['ASSIGNED', 'RESERVED', 'DHCP', 'STATIC']`. -/
def occupiedStatuses : List IpStatus := [.ASSIGNED, .RESERVED, .DHCP, .STATIC]

/-! ## `assignIpAddress` (`ipAddress.controller`) -/

inductive AssignResult
  | invalidFormat
  | notInSubnet
  | alreadyUsed
  | noAvailable
  | thrown
  | created (record : IpRecord) (store : IpStore)
deriving DecidableEq

/-- The `prisma.ipAddress.upsert` call shared by both paths: update the
record at `assignedIp` (spread of the provided fields, status defaulting
to `ASSIGNED`), or create it. `assignedTo` falls back to the requesting
user on create. -/
def upsertIp (subnetId : ℕ) (assignedIp : JStr) (d : IpData) (user : Option JStr)
    (store : IpStore) (freshId : ℕ) : IpRecord × IpStore :=
  match store.find? (fun r => r.ipAddress = assignedIp) with
  | some r =>
    let r' : IpRecord :=
      { r with
        status := d.status.getD .ASSIGNED
        subnetId := subnetId
        hostname := (d.hostname).elim r.hostname some
        macAddress := (d.macAddress).elim r.macAddress some
        deviceName := (d.deviceName).elim r.deviceName some
        assignedTo := (d.assignedTo).elim r.assignedTo some
        description := (d.description).elim r.description some }
    (r', store.map (fun x => if x.ipAddress = assignedIp then r' else x))
  | none =>
    let r : IpRecord :=
      ⟨freshId, assignedIp, subnetId, d.status.getD .ASSIGNED,
        d.hostname, d.macAddress, d.deviceName,
        match d.assignedTo with
        | some a => some a
        | none => user,
        d.description⟩
    (r, store ++ [r])

/-- The IPv4 scan: `for (let i = startNum; i <= endNum; i++)`, taking the
first candidate text not in the occupied set. The fuel is the signed trip
count `(endNum + 1 - startNum).toNat`. -/
def scanV4 (occ : List JStr) : ℕ → Int → Option JStr
  | 0, _ => none
  | fuel + 1, i =>
    let candidate := numberToIpv4 i
    if candidate ∈ occ then scanV4 occ fuel (i + 1) else some candidate

/-- The IPv6 scan: `while (current <= endNum && iterations < 1000)`. -/
def scanV6 (occ : List JStr) (endNum : ℕ) : ℕ → ℕ → Option JStr
  | _, 0 => none
  | current, fuel + 1 =>
    if endNum < current then none
    else
      let candidate := bigIntToIpv6 current
      if candidate ∈ occ then scanV6 occ endNum (current + 1) fuel
      else some candidate

/-- The occupied set of the automatic path: addresses of the subnet's
records whose status is in `occupiedStatuses`. -/
def assignedSetOf (subnet : Subnet) (store : IpStore) : List JStr :=
  (store.filter (fun r => r.subnetId = subnet.id ∧ r.status ∈ occupiedStatuses)).map
    (fun r => r.ipAddress)

/-- The manual path of `assignIpAddress` (a caller-supplied address). -/
def manualAssign (subnet : Subnet) (ipAddress : JStr) (d : IpData)
    (user : Option JStr) (store : IpStore) (freshId : ℕ) : AssignResult :=
  if ¬ isValidIp ipAddress then .invalidFormat
  else
    match isIpInSubnet ipAddress subnet.networkAddress subnet.subnetMask subnet.ipVersion with
    | none => .thrown
    | some inSubnet =>
      if ¬ inSubnet then .notInSubnet
      else
        match store.find? (fun r => r.ipAddress = ipAddress) with
        | some existing =>
          if existing.status ≠ .AVAILABLE then .alreadyUsed
          else
            match upsertIp subnet.id ipAddress d user store freshId with
            | (rec, store') => .created rec store'
        | none =>
          match upsertIp subnet.id ipAddress d user store freshId with
          | (rec, store') => .created rec store'

/-- The tail of the automatic path: upsert the scanned address, or answer
the 409 `No available IP addresses` when the scan found none. -/
def scanOutcome (subnet : Subnet) (d : IpData) (user : Option JStr) (store : IpStore)
    (freshId : ℕ) : Option JStr → AssignResult
  | some ip =>
    match upsertIp subnet.id ip d user store freshId with
    | (rec, store') => .created rec store'
  | none => .noAvailable

/-- The IPv4 arm of the automatic path: parse the range bounds, scan, and
upsert the first free address. -/
def autoScanV4 (subnet : Subnet) (d : IpData) (user : Option JStr) (store : IpStore)
    (freshId : ℕ) (range : SubnetRangeResult) : AssignResult :=
  match ipv4ToNumber range.start, ipv4ToNumber range.stop with
  | some startNum, some endNum =>
    scanOutcome subnet d user store freshId
      (scanV4 (assignedSetOf subnet store) (endNum + 1 - startNum).toNat startNum)
  | _, _ => .thrown

/-- The IPv6 arm of the automatic path (scan capped at 1000 iterations). -/
def autoScanV6 (subnet : Subnet) (d : IpData) (user : Option JStr) (store : IpStore)
    (freshId : ℕ) (range : SubnetRangeResult) : AssignResult :=
  match ipv6ToBigInt range.start, ipv6ToBigInt range.stop with
  | some startNum, some endNum =>
    scanOutcome subnet d user store freshId
      (scanV6 (assignedSetOf subnet store) endNum startNum 1000)
  | _, _ => .thrown

/-- The automatic path of `assignIpAddress`. -/
def autoAssign (subnet : Subnet) (d : IpData) (user : Option JStr) (store : IpStore)
    (freshId : ℕ) : AssignResult :=
  match getSubnetRange subnet.networkAddress subnet.subnetMask subnet.ipVersion with
  | none => .thrown
  | some range =>
    if subnet.ipVersion = .IPv6 then autoScanV6 subnet d user store freshId range
    else autoScanV4 subnet d user store freshId range

/-- `assignIpAddress` after the subnet lookup (the 404 path for a missing
subnet is outside this embedding: the subnet row is given). `none` for
`ipAddress?` is the automatic path. A thrown parse error is `thrown`. -/
def assignIpAddress (subnet : Subnet) (ipAddress? : Option JStr) (d : IpData)
    (user : Option JStr) (store : IpStore) (freshId : ℕ) : AssignResult :=
  match ipAddress? with
  | some ipAddress => manualAssign subnet ipAddress d user store freshId
  | none => autoAssign subnet d user store freshId

/-- The returned address of a successful assignment. -/
def assignedIpOf : AssignResult → Option JStr
  | .created r _ => some r.ipAddress
  | _ => none

/-! ## `createReservation` (`reservation.controller`) -/

/-- JS `x || user` on optional strings (the empty-string falsy edge case is
not modelled: absent means `none`). -/
def orUser (a user : Option JStr) : Option JStr :=
  match a with
  | some x => some x
  | none => user

/-- A `Reservation` row as created by the controller. -/
structure Reservation where
  subnetId : ℕ
  startIp : JStr
  endIp : JStr
  purpose : Option JStr
  reservedBy : Option JStr
  expiresAt : Option JStr
deriving DecidableEq

/-- Prisma string `gte`/`lte`: lexicographic byte order on the text. -/
def lexLe : JStr → JStr → Bool
  | [], _ => true
  | _ :: _, [] => false
  | a :: s, b :: t => if a = b then lexLe s t else decide (a.toNat < b.toNat)

/-- The IPv4 materialization loop
`for (let i = startNum; i <= endNum && count < maxIps; i++)`:
fuel is the 1000-record cap, `idx` numbers the rows for their ids. -/
def resRowsV4 (mk : ℕ → JStr → IpRecord) : ℕ → ℕ → Int → Int → List IpRecord
  | 0, _, _, _ => []
  | fuel + 1, idx, i, endNum =>
    if i ≤ endNum then mk idx (numberToIpv4 i) :: resRowsV4 mk fuel (idx + 1) (i + 1) endNum
    else []

/-- The IPv6 materialization loop (`while (current <= endNum && count < maxIps)`). -/
def resRowsV6 (mk : ℕ → JStr → IpRecord) : ℕ → ℕ → ℕ → ℕ → List IpRecord
  | 0, _, _, _ => []
  | fuel + 1, idx, current, endNum =>
    if current ≤ endNum then
      mk idx (bigIntToIpv6 current) :: resRowsV6 mk fuel (idx + 1) (current + 1) endNum
    else []

/-- `createMany({data, skipDuplicates: true})`: insert in order, skipping any
row whose unique `ipAddress` key is already present. -/
def createManySkipDup (rows : List IpRecord) (store : IpStore) : IpStore :=
  rows.foldl
    (fun st row => if st.any (fun r => r.ipAddress = row.ipAddress) then st else st ++ [row])
    store

inductive ReservationResult
  | notInSubnet
  | invalidOrder
  | conflict (ips : List JStr)
  | created (resv : Reservation) (store' : IpStore)
  | thrown
deriving DecidableEq

/-- `startIp <= endIp`, computed on the parsed numeric values (signed
32-bit for IPv4, exact `BigInt` for IPv6); `none` is a thrown parse error. -/
def startBeforeEnd (subnet : Subnet) (startIp endIp : JStr) : Option Bool :=
  if subnet.ipVersion = .IPv6 then
    match ipv6ToBigInt startIp, ipv6ToBigInt endIp with
    | some s, some e => some (decide (s ≤ e))
    | _, _ => none
  else
    match ipv4ToNumber startIp, ipv4ToNumber endIp with
    | some s, some e => some (decide (s ≤ e))
    | _, _ => none

/-- The conflict query: `ipAddress: { gte: startIp, lte: endIp }` is
Prisma's *string* comparison on the text — lexicographic, not numeric. -/
def conflictingIps (subnet : Subnet) (startIp endIp : JStr) (store : IpStore) :
    List IpRecord :=
  store.filter (fun r =>
    r.subnetId = subnet.id ∧ lexLe startIp r.ipAddress = true ∧
      lexLe r.ipAddress endIp = true ∧
      r.status ∈ [IpStatus.ASSIGNED, .DHCP, .STATIC])

/-- The row template pushed by the materialization loops; `createMany` row
ids are `baseId + idx`. -/
def resMk (subnet : Subnet) (purpose resBy user : Option JStr) (baseId : ℕ) :
    ℕ → JStr → IpRecord :=
  fun idx ip =>
    ⟨baseId + idx, ip, subnet.id, .RESERVED, none, none, none, orUser resBy user, purpose⟩

/-- The `ipAddresses` array built by the materialization step (`none` is a
thrown parse error). -/
def reservationRows (subnet : Subnet) (startIp endIp : JStr)
    (purpose resBy user : Option JStr) (baseId : ℕ) : Option (List IpRecord) :=
  if subnet.ipVersion = .IPv6 then
    match ipv6ToBigInt startIp, ipv6ToBigInt endIp with
    | some s, some e => some (resRowsV6 (resMk subnet purpose resBy user baseId) 1000 0 s e)
    | _, _ => none
  else
    match ipv4ToNumber startIp, ipv4ToNumber endIp with
    | some s, some e => some (resRowsV4 (resMk subnet purpose resBy user baseId) 1000 0 s e)
    | _, _ => none

/-- `createReservation` after the subnet lookup, assembled from the pieces
above in the source's early-return order. -/
def createReservation (subnet : Subnet) (startIp endIp : JStr)
    (purpose resBy expiresAt user : Option JStr) (store : IpStore) (baseId : ℕ) :
    ReservationResult :=
  match isIpInSubnet startIp subnet.networkAddress subnet.subnetMask subnet.ipVersion,
        isIpInSubnet endIp subnet.networkAddress subnet.subnetMask subnet.ipVersion with
  | some sOk, some eOk =>
    if ¬ (sOk && eOk) then .notInSubnet
    else
      match startBeforeEnd subnet startIp endIp with
      | none => .thrown
      | some sbe =>
        if ¬ sbe then .invalidOrder
        else if 0 < (conflictingIps subnet startIp endIp store).length then
          .conflict ((conflictingIps subnet startIp endIp store).map (fun r => r.ipAddress))
        else
          match reservationRows subnet startIp endIp purpose resBy user baseId with
          | none => .thrown
          | some rows =>
            .created ⟨subnet.id, startIp, endIp, purpose, orUser resBy user, expiresAt⟩
              (createManySkipDup rows store)
  | _, _ => .thrown

/-! ## `releaseIpAddress` (`ipAddress.controller`) -/

inductive ReleaseResult
  | notFound
  | released (record : IpRecord) (store' : IpStore)
deriving DecidableEq

/-- `releaseIpAddress`: 404 if the id is absent, else set status `AVAILABLE`
and null out the five metadata fields. -/
def releaseIpAddress (id : ℕ) (store : IpStore) : ReleaseResult :=
  match store.find? (fun r => r.id = id) with
  | none => .notFound
  | some existing =>
    let updated : IpRecord :=
      { existing with
        status := .AVAILABLE
        hostname := none
        macAddress := none
        deviceName := none
        assignedTo := none
        description := none }
    .released updated (store.map (fun r => if r.id = id then updated else r))

/-! ## Store lemmas for the reservation and release claims -/

theorem createManySkipDup_append (rows : List IpRecord) :
    ∀ store : IpStore, ∃ ext, createManySkipDup rows store = store ++ ext ∧
      ∀ r ∈ ext, r ∈ rows := by
  induction rows with
  | nil =>
    intro store
    exact ⟨[], by simp [createManySkipDup], by simp⟩
  | cons row rows ih =>
    intro store
    by_cases hmem : store.any (fun r => r.ipAddress = row.ipAddress)
    · obtain ⟨ext, heq, hsub⟩ := ih store
      refine ⟨ext, ?_, fun r hr => List.mem_cons_of_mem _ (hsub r hr)⟩
      rw [createManySkipDup] at heq
      rw [createManySkipDup, List.foldl_cons]
      simp only [hmem, if_pos]
      exact heq
    · obtain ⟨ext, heq, hsub⟩ := ih (store ++ [row])
      refine ⟨row :: ext, ?_, ?_⟩
      · rw [createManySkipDup, List.foldl_cons]
        rw [createManySkipDup] at heq
        simp only [hmem, if_neg, Bool.false_eq_true, not_false_iff]
        rw [heq, List.append_assoc, List.singleton_append]
      · intro r hr
        rcases List.mem_cons.mp hr with h | h
        · rw [h]; exact List.mem_cons_self _ _
        · exact List.mem_cons_of_mem _ (hsub r h)

theorem createManySkipDup_find_present (rows : List IpRecord) (store : IpStore) {ip : JStr}
    (h : (store.find? (fun r => r.ipAddress = ip)).isSome) :
    (createManySkipDup rows store).find? (fun r => r.ipAddress = ip) =
      store.find? (fun r => r.ipAddress = ip) := by
  obtain ⟨ext, heq, -⟩ := createManySkipDup_append rows store
  obtain ⟨a, ha⟩ := Option.isSome_iff_exists.mp h
  rw [heq, List.find?_append, ha]
  rfl

theorem createManySkipDup_find_new (rows : List IpRecord) (store : IpStore)
    {ip : JStr} {r' : IpRecord}
    (h : store.find? (fun r => r.ipAddress = ip) = none)
    (h2 : (createManySkipDup rows store).find? (fun r => r.ipAddress = ip) = some r') :
    r' ∈ rows := by
  obtain ⟨ext, heq, hsub⟩ := createManySkipDup_append rows store
  rw [heq, List.find?_append, h, Option.none_or] at h2
  exact hsub _ (List.mem_of_find?_eq_some h2)

theorem resRowsV4_status (mk : ℕ → JStr → IpRecord)
    (hmk : ∀ idx ip, (mk idx ip).status = .RESERVED) :
    ∀ (fuel idx : ℕ) (i e : Int), ∀ r ∈ resRowsV4 mk fuel idx i e, r.status = .RESERVED := by
  intro fuel
  induction fuel with
  | zero =>
    intro idx i e r hr
    simp [resRowsV4] at hr
  | succ fuel ih =>
    intro idx i e r hr
    rw [resRowsV4] at hr
    by_cases hle : i ≤ e
    · rw [if_pos hle] at hr
      rcases List.mem_cons.mp hr with h | h
      · rw [h]; exact hmk idx _
      · exact ih _ _ _ r h
    · rw [if_neg hle] at hr
      cases hr

theorem resRowsV6_status (mk : ℕ → JStr → IpRecord)
    (hmk : ∀ idx ip, (mk idx ip).status = .RESERVED) :
    ∀ (fuel idx : ℕ) (i e : ℕ), ∀ r ∈ resRowsV6 mk fuel idx i e, r.status = .RESERVED := by
  intro fuel
  induction fuel with
  | zero =>
    intro idx i e r hr
    simp [resRowsV6] at hr
  | succ fuel ih =>
    intro idx i e r hr
    rw [resRowsV6] at hr
    by_cases hle : i ≤ e
    · rw [if_pos hle] at hr
      rcases List.mem_cons.mp hr with h | h
      · rw [h]; exact hmk idx _
      · exact ih _ _ _ r h
    · rw [if_neg hle] at hr
      cases hr

theorem reservationRows_status {subnet : Subnet} {startIp endIp : JStr}
    {purpose resBy user : Option JStr} {baseId : ℕ} {rows : List IpRecord}
    (h : reservationRows subnet startIp endIp purpose resBy user baseId = some rows) :
    ∀ r ∈ rows, r.status = .RESERVED := by
  rw [reservationRows] at h
  by_cases hv : subnet.ipVersion = IpVersion.IPv6
  · rw [if_pos hv] at h
    split at h
    · next s e hs he =>
      rw [Option.some.injEq] at h
      rw [← h]
      exact resRowsV6_status _ (fun idx ip => rfl) 1000 0 s e
    · cases h
  · rw [if_neg hv] at h
    split at h
    · next s e hs he =>
      rw [Option.some.injEq] at h
      rw [← h]
      exact resRowsV4_status _ (fun idx ip => rfl) 1000 0 s e
    · cases h

/-- Inversion of a successful `createReservation`: the resulting store is a
skip-on-duplicate insertion of rows that all carry status `RESERVED`. -/
theorem createReservation_created_inv {subnet : Subnet} {startIp endIp : JStr}
    {purpose resBy expiresAt user : Option JStr} {store : IpStore} {baseId : ℕ}
    {resv : Reservation} {store' : IpStore}
    (hres : createReservation subnet startIp endIp purpose resBy expiresAt user store baseId =
      .created resv store') :
    ∃ rows, (∀ r ∈ rows, r.status = .RESERVED) ∧
      store' = createManySkipDup rows store := by
  rw [createReservation] at hres
  split at hres
  · split at hres
    · cases hres
    · split at hres
      · cases hres
      · split at hres
        · cases hres
        · split at hres
          · cases hres
          · split at hres
            · cases hres
            · next rows hrows =>
              rw [ReservationResult.created.injEq] at hres
              exact ⟨rows, reservationRows_status hrows, hres.2.symm⟩
  · cases hres

/-! ## Claims C9 and C10 -/

/-- **C9.** For every existing address record — whatever its prior status,
including an already-`AVAILABLE` one — `releaseIpAddress` succeeds (it never
returns the 404), and the updated record has status `AVAILABLE`, all five
metadata fields (hostname, MAC address, device name, assignee, description)
cleared, and its identity fields (id, address, subnet) unchanged. -/
theorem claim_C9_release_semantics (id : ℕ) (store : IpStore) (record : IpRecord)
    (h : store.find? (fun r => r.id = id) = some record) :
    releaseIpAddress id store ≠ .notFound ∧
    ∀ r' st', releaseIpAddress id store = .released r' st' →
      r'.status = .AVAILABLE ∧ r'.hostname = none ∧ r'.macAddress = none ∧
      r'.deviceName = none ∧ r'.assignedTo = none ∧ r'.description = none ∧
      r'.id = record.id ∧ r'.ipAddress = record.ipAddress ∧
      r'.subnetId = record.subnetId := by
  rw [releaseIpAddress, h]
  simp only []
  constructor
  · intro hcon
    cases hcon
  · intro r' st' hrel
    rw [ReleaseResult.released.injEq] at hrel
    obtain ⟨h1, h2⟩ := hrel
    rw [← h1]
    exact ⟨rfl, rfl, rfl, rfl, rfl, rfl, rfl, rfl, rfl⟩

/-- A concrete record for the C9 witness: already `AVAILABLE`, with
populated metadata (exercising the no-op-success clause). -/
def relRec : IpRecord :=
  ⟨1, jstr "10.0.0.1", 7, .AVAILABLE, some (jstr "host"), some (jstr "mac"),
    some (jstr "dev"), some (jstr "alice"), some (jstr "note")⟩

theorem claim_C9_release_semantics_witness :
    ([relRec] : IpStore).find? (fun r => r.id = 1) = some relRec ∧
    (releaseIpAddress 1 [relRec] ≠ .notFound ∧
      ∀ r' st', releaseIpAddress 1 [relRec] = .released r' st' →
        r'.status = .AVAILABLE ∧ r'.hostname = none ∧ r'.macAddress = none ∧
        r'.deviceName = none ∧ r'.assignedTo = none ∧ r'.description = none ∧
        r'.id = relRec.id ∧ r'.ipAddress = relRec.ipAddress ∧
        r'.subnetId = relRec.subnetId) :=
  ⟨rfl, claim_C9_release_semantics 1 [relRec] relRec rfl⟩

/-- **C10.** Frame property of `createReservation`'s materialization: on any
successful reservation, every address that already has a record — whatever
its status, including `AVAILABLE` — keeps that record entirely unchanged
(`createMany` with `skipDuplicates: true` never touches existing rows), and
any address that gains a record gains one with status `RESERVED`. -/
theorem claim_C10_materialization_frame (subnet : Subnet) (startIp endIp : JStr)
    (purpose resBy expiresAt user : Option JStr) (store : IpStore) (baseId : ℕ)
    (resv : Reservation) (store' : IpStore)
    (hres : createReservation subnet startIp endIp purpose resBy expiresAt user store baseId =
      .created resv store') :
    (∀ ip, (store.find? (fun r => r.ipAddress = ip)).isSome →
      store'.find? (fun r => r.ipAddress = ip) = store.find? (fun r => r.ipAddress = ip)) ∧
    (∀ ip r', store.find? (fun r => r.ipAddress = ip) = none →
      store'.find? (fun r => r.ipAddress = ip) = some r' → r'.status = .RESERVED) := by
  obtain ⟨rows, hstatus, hstore⟩ := createReservation_created_inv hres
  subst hstore
  constructor
  · intro ip hsome
    exact createManySkipDup_find_present rows store hsome
  · intro ip r' hnone hfound
    exact hstatus r' (createManySkipDup_find_new rows store hnone hfound)

/-- The C10 witness store: one already-released (`AVAILABLE`, metadata
intact) record inside the range about to be reserved. -/
def c10Store : IpStore :=
  [⟨5, jstr "192.168.1.100", 0, .AVAILABLE, some (jstr "h"), none, none, none, none⟩]

/-- The store produced by the witness reservation: the `AVAILABLE` record
untouched, one new `RESERVED` record for the other address of the range. -/
def c10StoreAfter : IpStore :=
  [⟨5, jstr "192.168.1.100", 0, .AVAILABLE, some (jstr "h"), none, none, none, none⟩,
   ⟨51, jstr "192.168.1.101", 0, .RESERVED, none, none, none, none, none⟩]

theorem claim_C10_materialization_frame_witness :
    createReservation ⟨0, jstr "192.168.1.0", 24, .IPv4⟩ (jstr "192.168.1.100")
        (jstr "192.168.1.101") none none none none c10Store 50 =
      .created ⟨0, jstr "192.168.1.100", jstr "192.168.1.101", none, none, none⟩
        c10StoreAfter ∧
    ((∀ ip, (c10Store.find? (fun r => r.ipAddress = ip)).isSome →
        c10StoreAfter.find? (fun r => r.ipAddress = ip) =
          c10Store.find? (fun r => r.ipAddress = ip)) ∧
     (∀ ip r', c10Store.find? (fun r => r.ipAddress = ip) = none →
        c10StoreAfter.find? (fun r => r.ipAddress = ip) = some r' →
          r'.status = .RESERVED)) :=
  ⟨by decide,
   claim_C10_materialization_frame ⟨0, jstr "192.168.1.0", 24, .IPv4⟩ (jstr "192.168.1.100")
     (jstr "192.168.1.101") none none none none c10Store 50
     ⟨0, jstr "192.168.1.100", jstr "192.168.1.101", none, none, none⟩ c10StoreAfter
     (by decide)⟩

/-! ## First-fit allocation: the specification's scan and the code's scan -/

/-- The allocation order the specification describes: scan the numeric
candidates `first, first+1, …` in ascending order and select the first one
not in the occupied set. -/
def specFirstFit (first count : ℕ) (occupied : List ℕ) : Option ℕ :=
  (List.range' first count).find? (fun a => decide (a ∉ occupied))

theorem getSubnetRange_v4_eval {net : JStr} {x : Int} (hx : ipv4ToNumber net = some x)
    (mask : ℕ) :
    getSubnetRange net mask IpVersion.IPv4 =
      some ⟨numberToIpv4 (x + 1), numberToIpv4 (x + 2 ^ (32 - mask) - 2),
        2 ^ (32 - mask) - 2⟩ := by
  rw [getSubnetRange, if_neg (by simp), hx]

theorem toInt32_add_left (x c : Int) : toInt32 (toInt32 x + c) = toInt32 (x + c) := by
  apply toInt32_congr
  have := toInt32_emod x
  omega

/-- The record returned by the upsert carries the requested address. -/
theorem upsertIp_fst (subnetId : ℕ) (assignedIp : JStr) (d : IpData) (user : Option JStr)
    (store : IpStore) (freshId : ℕ) :
    (upsertIp subnetId assignedIp d user store freshId).1.ipAddress = assignedIp := by
  rw [upsertIp]
  split
  · next r heq =>
    show r.ipAddress = assignedIp
    have hp := List.find?_some heq
    exact of_decide_eq_true hp
  · rfl

/-- The code's IPv4 scan agrees with the specification's first-fit search,
provided the trip stays inside one signed half of the 32-bit space (`occ`
holds the canonical spellings of exactly the numbers in `S`). -/
theorem scanV4_eq_firstFit (occ : List JStr) (S : List ℕ)
    (hocc : ∀ b : ℕ, b < 2 ^ 32 → ((numberToIpv4 ((b : ℕ) : Int) ∈ occ) ↔ b ∈ S)) :
    ∀ (count base : ℕ),
      (base + count ≤ 2 ^ 31 ∨ (2 ^ 31 ≤ base ∧ base + count ≤ 2 ^ 32)) →
      scanV4 occ count (toInt32 ((base : ℕ) : Int)) =
        (specFirstFit base count S).map (fun a => numberToIpv4 ((a : ℕ) : Int)) := by
  intro count
  induction count with
  | zero =>
    intro base hrange
    rfl
  | succ count ih =>
    intro base hrange
    have hb32 : base < 2 ^ 32 := by omega
    rw [scanV4]
    rw [numberToIpv4_congr (toUint32_toInt32 ((base : ℕ) : Int))]
    rw [specFirstFit, List.range'_succ]
    by_cases hb : base ∈ S
    · rw [if_pos ((hocc base hb32).mpr hb)]
      rw [List.find?_cons_of_neg _ (by simp [hb])]
      rcases Nat.eq_zero_or_pos count with hc0 | hcpos
      · subst hc0
        rw [scanV4]
        rfl
      · have hstep : toInt32 ((base : ℕ) : Int) + 1 = toInt32 (((base + 1 : ℕ)) : Int) := by
          rcases hrange with h1 | ⟨h2a, h2b⟩
          · rw [toInt32_coe_low (by omega), toInt32_coe_low (by omega)]
            push_cast
            ring
          · rw [toInt32_coe_high h2a (by omega), toInt32_coe_high (by omega) (by omega)]
            push_cast
            ring
        have hnext : (base + 1) + count ≤ 2 ^ 31 ∨
            (2 ^ 31 ≤ base + 1 ∧ (base + 1) + count ≤ 2 ^ 32) := by omega
        rw [hstep, ih (base + 1) hnext, specFirstFit]
    · rw [if_neg (fun hmem => hb ((hocc base hb32).mp hmem))]
      rw [List.find?_cons_of_pos _ (by simp [hb])]
      rfl

/-- Evaluation of the automatic path on an IPv4 subnet whose network
address parses: the result is determined by the scan over the parsed
range bounds. -/
theorem autoAssign_v4_scan (subnet : Subnet) (mask : ℕ) (d : IpData) (user : Option JStr)
    (store : IpStore) (freshId : ℕ)
    (h4 : subnet.ipVersion = IpVersion.IPv4) (hmask : subnet.subnetMask = mask)
    {x : Int} (hx : ipv4ToNumber subnet.networkAddress = some x) :
    autoAssign subnet d user store freshId =
      scanOutcome subnet d user store freshId
        (scanV4 (assignedSetOf subnet store)
          ((toInt32 (x + 2 ^ (32 - mask) - 2) + 1 - toInt32 (x + 1)).toNat)
          (toInt32 (x + 1))) := by
  subst hmask
  rw [autoAssign, h4, getSubnetRange_v4_eval hx]
  simp only []
  rw [if_neg (by simp : ¬ (IpVersion.IPv4 = IpVersion.IPv6))]
  rw [autoScanV4]
  simp only []
  rw [ipv4ToNumber_numberToIpv4, ipv4ToNumber_numberToIpv4]

/-- Reading the assigned address off a scan outcome. -/
theorem assignedIpOf_scanOutcome_some (subnet : Subnet) (d : IpData) (user : Option JStr)
    (store : IpStore) (freshId : ℕ) (ip : JStr) :
    assignedIpOf (scanOutcome subnet d user store freshId (some ip)) = some ip := by
  show some ((upsertIp subnet.id ip d user store freshId).1.ipAddress) = some ip
  rw [upsertIp_fst]

/-- Automatic IPv4 allocation on an aligned subnet (`network = k·2^(32-mask)`,
`1 ≤ mask ≤ 30`) is the specification's first-fit search over the usable
range, and returns the 409 when the search is exhausted. -/
theorem autoAssignV4_firstFit (k mask freshId : ℕ) (d : IpData) (user : Option JStr)
    (S : List ℕ) (store : IpStore) (subnet : Subnet)
    (h4 : subnet.ipVersion = IpVersion.IPv4)
    (hna : subnet.networkAddress = numberToIpv4 ((k * 2 ^ (32 - mask) : ℕ) : Int))
    (hmask : subnet.subnetMask = mask)
    (hm1 : 1 ≤ mask) (hm2 : mask ≤ 30) (hk : k < 2 ^ mask)
    (hocc : ∀ b : ℕ, b < 2 ^ 32 →
      ((numberToIpv4 ((b : ℕ) : Int) ∈ assignedSetOf subnet store) ↔ b ∈ S)) :
    assignedIpOf (assignIpAddress subnet none d user store freshId) =
      (specFirstFit (k * 2 ^ (32 - mask) + 1) (2 ^ (32 - mask) - 2) S).map
        (fun a => numberToIpv4 ((a : ℕ) : Int)) ∧
    (specFirstFit (k * 2 ^ (32 - mask) + 1) (2 ^ (32 - mask) - 2) S = none →
      assignIpAddress subnet none d user store freshId = AssignResult.noAvailable) := by
  have hT4 : 4 ≤ 2 ^ (32 - mask) := by
    have h2 : (2 : ℕ) ^ 2 ≤ 2 ^ (32 - mask) := Nat.pow_le_pow_right (by omega) (by omega)
    omega
  have hmul : k * 2 ^ (32 - mask) + 2 ^ (32 - mask) ≤ 2 ^ 32 := by
    have h1 : (k + 1) * 2 ^ (32 - mask) ≤ 2 ^ mask * 2 ^ (32 - mask) :=
      Nat.mul_le_mul_right _ hk
    have h2 : (2 : ℕ) ^ mask * 2 ^ (32 - mask) = 2 ^ 32 := by
      rw [← pow_add]
      congr 1
      omega
    have h3 : (k + 1) * 2 ^ (32 - mask) = k * 2 ^ (32 - mask) + 2 ^ (32 - mask) := by ring
    omega
  have hsign : k * 2 ^ (32 - mask) + 2 ^ (32 - mask) ≤ 2 ^ 31 ∨
      2 ^ 31 ≤ k * 2 ^ (32 - mask) := by
    rcases Nat.lt_or_ge k (2 ^ (mask - 1)) with hlt | hge
    · left
      have h1 : (k + 1) * 2 ^ (32 - mask) ≤ 2 ^ (mask - 1) * 2 ^ (32 - mask) :=
        Nat.mul_le_mul_right _ hlt
      have h2 : (2 : ℕ) ^ (mask - 1) * 2 ^ (32 - mask) = 2 ^ 31 := by
        rw [← pow_add]
        congr 1
        omega
      have h3 : (k + 1) * 2 ^ (32 - mask) = k * 2 ^ (32 - mask) + 2 ^ (32 - mask) := by ring
      omega
    · right
      have h1 : 2 ^ (mask - 1) * 2 ^ (32 - mask) ≤ k * 2 ^ (32 - mask) :=
        Nat.mul_le_mul_right _ hge
      have h2 : (2 : ℕ) ^ (mask - 1) * 2 ^ (32 - mask) = 2 ^ 31 := by
        rw [← pow_add]
        congr 1
        omega
      omega
  generalize hTdef : (2 : ℕ) ^ (32 - mask) = T at hT4 hmul hsign hna ⊢
  generalize hNdef : k * T = net at hmul hsign hna ⊢
  have hdisj : (net + 1) + (T - 2) ≤ 2 ^ 31 ∨
      (2 ^ 31 ≤ net + 1 ∧ (net + 1) + (T - 2) ≤ 2 ^ 32) := by omega
  have hcastT : ((T : ℕ) : Int) = (2 : Int) ^ (32 - mask) := by
    rw [← hTdef]
    push_cast
    ring
  have hx : ipv4ToNumber subnet.networkAddress = some (toInt32 ((net : ℕ) : Int)) := by
    rw [hna]
    exact ipv4ToNumber_numberToIpv4 _
  have hstartraw : toInt32 (toInt32 ((net : ℕ) : Int) + 1) = toInt32 (((net + 1 : ℕ)) : Int) := by
    rw [toInt32_add_left,
      show ((net : ℕ) : Int) + 1 = (((net + 1 : ℕ)) : Int) by push_cast; ring]
  have hfuelraw : (toInt32 (toInt32 ((net : ℕ) : Int) + 2 ^ (32 - mask) - 2) + 1 -
      toInt32 (((net + 1 : ℕ)) : Int)).toNat = T - 2 := by
    rw [show toInt32 ((net : ℕ) : Int) + (2 : Int) ^ (32 - mask) - 2 =
        toInt32 ((net : ℕ) : Int) + ((2 : Int) ^ (32 - mask) - 2) by ring,
      toInt32_add_left, ← hcastT]
    have e2 : ((net : ℕ) : Int) + (((T : ℕ) : Int) - 2) = (((net + T - 2 : ℕ)) : Int) := by
      omega
    rw [e2]
    rcases hsign with hlo | hhi
    · rw [toInt32_coe_low (by omega), toInt32_coe_low (by omega)]
      omega
    · rw [toInt32_coe_high (by omega) (by omega), toInt32_coe_high (by omega) (by omega)]
      omega
  have hscan0 := scanV4_eq_firstFit (assignedSetOf subnet store) S hocc (T - 2) (net + 1) hdisj
  have hscanraw : scanV4 (assignedSetOf subnet store)
      ((toInt32 (toInt32 ((net : ℕ) : Int) + 2 ^ (32 - mask) - 2) + 1 -
        toInt32 (toInt32 ((net : ℕ) : Int) + 1)).toNat)
      (toInt32 (toInt32 ((net : ℕ) : Int) + 1)) =
      (specFirstFit (net + 1) (T - 2) S).map (fun a => numberToIpv4 ((a : ℕ) : Int)) := by
    rw [hstartraw, hfuelraw]
    exact hscan0
  have heval := autoAssign_v4_scan subnet mask d user store freshId h4 hmask hx
  have h0 : assignIpAddress subnet none d user store freshId =
      autoAssign subnet d user store freshId := rfl
  refine ⟨?_, ?_⟩
  · rw [h0, heval, hscanraw]
    rcases hf : specFirstFit (net + 1) (T - 2) S with _ | a
    · rfl
    · exact assignedIpOf_scanOutcome_some subnet d user store freshId
        (numberToIpv4 ((a : ℕ) : Int))
  · intro hnone
    rw [h0, heval, hscanraw, hnone]
    rfl


/-! ## Claims C1 and C3 -/

/-- The C1 example store: `.1`, `.5`, `.10` of `192.168.1.0/24` occupied. -/
def exC1Store : IpStore :=
  [⟨1, jstr "192.168.1.1", 0, .ASSIGNED, none, none, none, none, none⟩,
   ⟨2, jstr "192.168.1.5", 0, .ASSIGNED, none, none, none, none, none⟩,
   ⟨3, jstr "192.168.1.10", 0, .ASSIGNED, none, none, none, none, none⟩]

/-- C1 counterexample: the claim quantifies over *every* subnet, but on the
`/0` subnet `0.0.0.0/0` (accepted by the validation layer) with an empty
store the allocator answers `No available IP addresses` instead of the
numerically smallest free address `0.0.0.1`: the parsed end bound is the
signed value `-2`, so the scan loop never runs. -/
theorem claim_C1_counterexample_prefix0 :
    assignIpAddress ⟨0, jstr "0.0.0.0", 0, IpVersion.IPv4⟩ none emptyIpData none [] 0 =
      AssignResult.noAvailable ∧
    assignedIpOf (assignIpAddress ⟨0, jstr "0.0.0.0", 0, IpVersion.IPv4⟩ none emptyIpData
      none [] 0) ≠ some (jstr "0.0.0.1") := by
  refine ⟨by decide, by decide⟩

/-- C1 (amended): on every *aligned* IPv4 subnet with prefix `1 ≤ mask ≤ 30`
whose occupied records carry canonically spelled addresses, automatic
allocation returns exactly the specification\'s first-fit choice — the
numerically smallest usable address not in the occupied set — and the 409
when the range is exhausted; in particular `192.168.1.0/24` with `.1`,
`.5`, `.10` occupied yields `192.168.1.2`. -/
theorem claim_C1_first_fit_allocation (k mask freshId : ℕ) (d : IpData)
    (user : Option JStr) (S : List ℕ) (store : IpStore) (subnet : Subnet)
    (h4 : subnet.ipVersion = IpVersion.IPv4)
    (hna : subnet.networkAddress = numberToIpv4 ((k * 2 ^ (32 - mask) : ℕ) : Int))
    (hmask : subnet.subnetMask = mask)
    (hm1 : 1 ≤ mask) (hm2 : mask ≤ 30) (hk : k < 2 ^ mask)
    (hS : ∀ a ∈ S, a < 2 ^ 32)
    (hstore : assignedSetOf subnet store = S.map (fun a => numberToIpv4 ((a : ℕ) : Int))) :
    assignedIpOf (assignIpAddress subnet none d user store freshId) =
      (specFirstFit (k * 2 ^ (32 - mask) + 1) (2 ^ (32 - mask) - 2) S).map
        (fun a => numberToIpv4 ((a : ℕ) : Int)) ∧
    (specFirstFit (k * 2 ^ (32 - mask) + 1) (2 ^ (32 - mask) - 2) S = none →
      assignIpAddress subnet none d user store freshId = AssignResult.noAvailable) ∧
    assignedIpOf (assignIpAddress ⟨0, jstr "192.168.1.0", 24, IpVersion.IPv4⟩ none
      emptyIpData none exC1Store 99) = some (jstr "192.168.1.2") := by
  have hocc : ∀ b : ℕ, b < 2 ^ 32 →
      ((numberToIpv4 ((b : ℕ) : Int) ∈ assignedSetOf subnet store) ↔ b ∈ S) := by
    intro b hb
    rw [hstore]
    constructor
    · intro hmem
      obtain ⟨a, ha, hfa⟩ := List.mem_map.mp hmem
      exact (numberToIpv4_inj (hS a ha) hb hfa) ▸ ha
    · intro hbS
      exact List.mem_map_of_mem _ hbS
  obtain ⟨h1, h2⟩ := autoAssignV4_firstFit k mask freshId d user S store subnet
    h4 hna hmask hm1 hm2 hk hocc
  exact ⟨h1, h2, by decide⟩

theorem claim_C1_first_fit_allocation_witness :
    ((⟨0, jstr "192.168.1.0", 24, IpVersion.IPv4⟩ : Subnet).ipVersion = IpVersion.IPv4) ∧
    ((⟨0, jstr "192.168.1.0", 24, IpVersion.IPv4⟩ : Subnet).networkAddress =
      numberToIpv4 ((12625921 * 2 ^ (32 - 24) : ℕ) : Int)) ∧
    ((⟨0, jstr "192.168.1.0", 24, IpVersion.IPv4⟩ : Subnet).subnetMask = 24) ∧
    1 ≤ 24 ∧ 24 ≤ 30 ∧ 12625921 < 2 ^ 24 ∧
    (∀ a ∈ ([3232235777, 3232235781, 3232235786] : List ℕ), a < 2 ^ 32) ∧
    (assignedSetOf ⟨0, jstr "192.168.1.0", 24, IpVersion.IPv4⟩ exC1Store =
      ([3232235777, 3232235781, 3232235786] : List ℕ).map
        (fun a => numberToIpv4 ((a : ℕ) : Int))) ∧
    (assignedIpOf (assignIpAddress ⟨0, jstr "192.168.1.0", 24, IpVersion.IPv4⟩ none
        emptyIpData none exC1Store 7) =
      (specFirstFit (12625921 * 2 ^ (32 - 24) + 1) (2 ^ (32 - 24) - 2)
          ([3232235777, 3232235781, 3232235786] : List ℕ)).map
        (fun a => numberToIpv4 ((a : ℕ) : Int)) ∧
    (specFirstFit (12625921 * 2 ^ (32 - 24) + 1) (2 ^ (32 - 24) - 2)
        ([3232235777, 3232235781, 3232235786] : List ℕ) = none →
      assignIpAddress ⟨0, jstr "192.168.1.0", 24, IpVersion.IPv4⟩ none emptyIpData none
        exC1Store 7 = AssignResult.noAvailable) ∧
    assignedIpOf (assignIpAddress ⟨0, jstr "192.168.1.0", 24, IpVersion.IPv4⟩ none
      emptyIpData none exC1Store 99) = some (jstr "192.168.1.2")) :=
  ⟨rfl, by decide, rfl, by decide, by decide, by decide, by decide, by decide,
   claim_C1_first_fit_allocation 12625921 24 7 emptyIpData none
     ([3232235777, 3232235781, 3232235786] : List ℕ) exC1Store
     ⟨0, jstr "192.168.1.0", 24, IpVersion.IPv4⟩
     rfl (by decide) rfl (by decide) (by decide) (by decide) (by decide) (by decide)⟩

/-- C3 (code bug): the conflict query compares addresses as *strings*
(Prisma `gte`/`lte` on the `ipAddress` text), not numerically. With only
`192.168.1.11` ASSIGNED — numerically 3232235787, strictly *below* the
requested range `[192.168.1.100, 192.168.1.150]` = `[3232235876, 3232235926]`
— `createReservation` nevertheless fails with a conflict carrying that
address, because `"192.168.1.100" ≤ "192.168.1.11" ≤ "192.168.1.150"`
lexicographically; so the claimed characterization (conflict iff some
occupied address lies numerically within the range) is false. -/
theorem claim_C3_conflict_is_lexicographic :
    createReservation ⟨0, jstr "192.168.1.0", 24, IpVersion.IPv4⟩ (jstr "192.168.1.100")
        (jstr "192.168.1.150") none none none none
        [⟨1, jstr "192.168.1.11", 0, .ASSIGNED, none, none, none, none, none⟩] 10 =
      .conflict [jstr "192.168.1.11"] ∧
    ipv4ToNumber (jstr "192.168.1.11") = some (toInt32 (3232235787 : Int)) ∧
    ipv4ToNumber (jstr "192.168.1.100") = some (toInt32 (3232235876 : Int)) ∧
    ipv4ToNumber (jstr "192.168.1.150") = some (toInt32 (3232235926 : Int)) ∧
    (3232235787 : ℕ) < 3232235876 := by
  refine ⟨by decide, by decide, by decide, by decide, by decide⟩


/-! ## Claim C2: allocation inside an active reservation -/

/-- First-fit over a fully occupied leading block lands right behind it. -/
theorem specFirstFit_after_block {s n count : ℕ} (h : n < count) :
    specFirstFit s count (List.range' s n) = some (s + n) := by
  rw [specFirstFit]
  have h2 := List.range'_append s n (count - n) 1
  rw [one_mul] at h2
  rw [show count - n + n = count from by omega] at h2
  rw [← h2, List.find?_append]
  have h1 : (List.range' s n).find? (fun a => decide (a ∉ List.range' s n)) = none := by
    rw [List.find?_eq_none]
    intro x hx
    simp [hx]
  rw [h1, Option.none_or]
  rw [show count - n = (count - n - 1) + 1 from by omega, List.range'_succ]
  rw [List.find?_cons_of_pos _ (by
    apply decide_eq_true
    intro hmem
    rw [List.mem_range'_1] at hmem
    omega)]

/-- `createMany` with `skipDuplicates` preserves the *set of addresses*:
a duplicate row is dropped only when its address is already present. -/
theorem createManySkipDup_addr_mem (rows : List IpRecord) :
    ∀ (store : IpStore) (x : JStr),
      (x ∈ (createManySkipDup rows store).map (fun r => r.ipAddress)) ↔
        (x ∈ store.map (fun r => r.ipAddress) ∨ x ∈ rows.map (fun r => r.ipAddress)) := by
  induction rows with
  | nil =>
    intro store x
    simp [createManySkipDup]
  | cons row rows ih =>
    intro store x
    by_cases hmem : store.any (fun r => r.ipAddress = row.ipAddress)
    · have hstep : createManySkipDup (row :: rows) store = createManySkipDup rows store := by
        rw [createManySkipDup, createManySkipDup, List.foldl_cons]
        simp only [hmem, if_pos]
      rw [hstep, ih store]
      have hrow : row.ipAddress ∈ store.map (fun r => r.ipAddress) := by
        obtain ⟨r, hr, hp⟩ := List.any_eq_true.mp hmem
        have hr2 : r.ipAddress = row.ipAddress := of_decide_eq_true hp
        exact hr2 ▸ List.mem_map_of_mem _ hr
      simp only [List.map_cons, List.mem_cons]
      constructor
      · rintro (h | h)
        · exact Or.inl h
        · exact Or.inr (Or.inr h)
      · rintro (h | h | h)
        · exact Or.inl h
        · exact Or.inl (h ▸ hrow)
        · exact Or.inr h
    · have hstep : createManySkipDup (row :: rows) store =
          createManySkipDup rows (store ++ [row]) := by
        rw [createManySkipDup, createManySkipDup, List.foldl_cons]
        simp only [hmem, if_neg, Bool.false_eq_true, not_false_iff]
      rw [hstep, ih (store ++ [row])]
      simp only [List.map_append, List.mem_append, List.map_cons, List.map_nil,
        List.mem_cons, List.mem_singleton, List.not_mem_nil]
      tauto

/-- Every row built by the IPv4 materialization loop is an instance of the
row template. -/
theorem resRowsV4_shape (mk : ℕ → JStr → IpRecord) :
    ∀ (fuel idx : ℕ) (i e : Int), ∀ r ∈ resRowsV4 mk fuel idx i e, ∃ n s, r = mk n s := by
  intro fuel
  induction fuel with
  | zero =>
    intro idx i e r hr
    simp [resRowsV4] at hr
  | succ fuel ih =>
    intro idx i e r hr
    rw [resRowsV4] at hr
    by_cases hle : i ≤ e
    · rw [if_pos hle] at hr
      rcases List.mem_cons.mp hr with h | h
      · exact ⟨idx, numberToIpv4 i, h⟩
      · exact ih _ _ _ r h
    · rw [if_neg hle] at hr
      cases hr

/-- Addresses of the IPv4 materialization rows: exactly the formatted
numbers `i, i+1, …` for the first `min fuel (e-i+1)` offsets. -/
theorem resRowsV4_addr_mem (mk : ℕ → JStr → IpRecord)
    (hmk : ∀ idx ip, (mk idx ip).ipAddress = ip) :
    ∀ (fuel idx : ℕ) (i e : Int) (x : JStr),
      (x ∈ (resRowsV4 mk fuel idx i e).map (fun r => r.ipAddress)) ↔
        ∃ j : ℕ, j < fuel ∧ i + j ≤ e ∧ x = numberToIpv4 (i + j) := by
  intro fuel
  induction fuel with
  | zero =>
    intro idx i e x
    simp [resRowsV4]
  | succ fuel ih =>
    intro idx i e x
    rw [resRowsV4]
    by_cases hle : i ≤ e
    · rw [if_pos hle]
      simp only [List.map_cons, List.mem_cons, hmk]
      rw [ih (idx + 1) (i + 1) e x]
      constructor
      · rintro (h | ⟨j, hj, hle2, hx⟩)
        · exact ⟨0, by omega, by simpa using hle, by simpa using h⟩
        · refine ⟨j + 1, by omega, by omega, ?_⟩
          rw [hx]
          apply congrArg
          push_cast
          ring
      · rintro ⟨j, hj, hle2, hx⟩
        rcases Nat.eq_zero_or_pos j with h0 | hpos
        · subst h0
          left
          simpa using hx
        · right
          refine ⟨j - 1, by omega, by omega, ?_⟩
          rw [hx]
          apply congrArg
          omega
    · rw [if_neg hle]
      simp only [List.map_nil]
      constructor
      · intro h
        cases h
      · rintro ⟨j, hj, hle2, hx⟩
        exfalso
        have hj0 : (0 : Int) ≤ (j : Int) := by positivity
        omega


/-- The store materialized from the empty store for an aligned `/21`
reservation `[net+1, net+1500]` occupies exactly the first 1000 addresses
`net+1 … net+1000` (the materialization cap). -/
theorem reservationStore_occ (subnet : Subnet) (purpose resBy user : Option JStr)
    (baseId k : ℕ) (hk : k < 2 ^ 21) :
    ∀ b : ℕ, b < 2 ^ 32 →
      ((numberToIpv4 ((b : ℕ) : Int) ∈ assignedSetOf subnet
          (createManySkipDup (resRowsV4 (resMk subnet purpose resBy user baseId) 1000 0
            (toInt32 ((k * 2 ^ 11 + 1 : ℕ) : Int))
            (toInt32 ((k * 2 ^ 11 + 1500 : ℕ) : Int))) [])) ↔
        b ∈ List.range' (k * 2 ^ 11 + 1) 1000) := by
  intro b hb
  have hsign : k * 2 ^ 11 + 2 ^ 11 ≤ 2 ^ 31 ∨ 2 ^ 31 ≤ k * 2 ^ 11 := by omega
  obtain ⟨ext, heq, hsub⟩ := createManySkipDup_append
    (resRowsV4 (resMk subnet purpose resBy user baseId) 1000 0
      (toInt32 ((k * 2 ^ 11 + 1 : ℕ) : Int)) (toInt32 ((k * 2 ^ 11 + 1500 : ℕ) : Int))) []
  rw [List.nil_append] at heq
  have hfilter : (createManySkipDup (resRowsV4 (resMk subnet purpose resBy user baseId) 1000 0
      (toInt32 ((k * 2 ^ 11 + 1 : ℕ) : Int)) (toInt32 ((k * 2 ^ 11 + 1500 : ℕ) : Int))) []).filter
      (fun r => r.subnetId = subnet.id ∧ r.status ∈ occupiedStatuses) =
      createManySkipDup (resRowsV4 (resMk subnet purpose resBy user baseId) 1000 0
        (toInt32 ((k * 2 ^ 11 + 1 : ℕ) : Int)) (toInt32 ((k * 2 ^ 11 + 1500 : ℕ) : Int))) [] := by
    rw [List.filter_eq_self]
    intro r hr
    rw [heq] at hr
    obtain ⟨n, s, hrs⟩ := resRowsV4_shape _ 1000 0 _ _ r (hsub r hr)
    rw [hrs]
    apply decide_eq_true
    exact ⟨rfl, show IpStatus.RESERVED ∈ occupiedStatuses by decide⟩
  rw [assignedSetOf, hfilter, createManySkipDup_addr_mem]
  simp only [List.map_nil, List.not_mem_nil, false_or]
  rw [resRowsV4_addr_mem _ (fun idx ip => rfl), List.mem_range'_1]
  constructor
  · rintro ⟨j, hj, hle2, hx⟩
    rcases hsign with hlo | hhi
    · rw [toInt32_coe_low (by omega)] at hx
      have hxx : numberToIpv4 ((b : ℕ) : Int) =
          numberToIpv4 (((k * 2 ^ 11 + 1 + j : ℕ)) : Int) := by
        rw [hx]
        apply congrArg
        push_cast
        ring
      have hbe := numberToIpv4_inj hb (by omega) hxx
      omega
    · rw [toInt32_coe_high (by omega) (by omega)] at hx
      have hxx : numberToIpv4 ((b : ℕ) : Int) =
          numberToIpv4 (((k * 2 ^ 11 + 1 + j : ℕ)) : Int) := by
        rw [hx]
        apply numberToIpv4_congr
        simp only [toUint32]
        omega
      have hbe := numberToIpv4_inj hb (by omega) hxx
      omega
  · rintro ⟨hb1, hb2⟩
    refine ⟨b - (k * 2 ^ 11 + 1), by omega, ?_, ?_⟩
    · rcases hsign with hlo | hhi
      · rw [toInt32_coe_low (by omega), toInt32_coe_low (by omega)]
        omega
      · rw [toInt32_coe_high (by omega) (by omega), toInt32_coe_high (by omega) (by omega)]
        omega
    · rcases hsign with hlo | hhi
      · rw [toInt32_coe_low (by omega)]
        apply numberToIpv4_congr
        simp only [toUint32]
        omega
      · rw [toInt32_coe_high (by omega) (by omega)]
        apply numberToIpv4_congr
        simp only [toUint32]
        omega


/-- C2 (code bug): the allocator consults only *materialized* records, never
the reservation's own range. For every aligned `/21` subnet, reserving
`[net+1, net+1500]` on an empty store materializes only the 1000-record cap
(`net+1 … net+1000`), and the very next automatic allocation returns
`net+1001` — an address numerically inside the still-active reservation's
`[startIp, endIp]` range. -/
theorem claim_C2_allocates_inside_reservation (k freshId baseId : ℕ) (d : IpData)
    (purpose resBy user u2 : Option JStr) (subnet : Subnet)
    (h4 : subnet.ipVersion = IpVersion.IPv4)
    (hna : subnet.networkAddress = numberToIpv4 ((k * 2 ^ 11 : ℕ) : Int))
    (hmask : subnet.subnetMask = 21)
    (hk : k < 2 ^ 21) :
    ∀ resv store',
      createReservation subnet (numberToIpv4 ((k * 2 ^ 11 + 1 : ℕ) : Int))
          (numberToIpv4 ((k * 2 ^ 11 + 1500 : ℕ) : Int)) purpose resBy none user [] baseId =
        .created resv store' →
      assignedIpOf (assignIpAddress subnet none d u2 store' freshId) =
          some (numberToIpv4 ((k * 2 ^ 11 + 1001 : ℕ) : Int)) ∧
      k * 2 ^ 11 + 1 ≤ k * 2 ^ 11 + 1001 ∧ k * 2 ^ 11 + 1001 ≤ k * 2 ^ 11 + 1500 := by
  intro resv store' hres
  have hsign : k * 2 ^ 11 + 2 ^ 11 ≤ 2 ^ 31 ∨ 2 ^ 31 ≤ k * 2 ^ 11 := by omega
  have hin1 : isIpInSubnet (numberToIpv4 ((k * 2 ^ 11 + 1 : ℕ) : Int))
      subnet.networkAddress subnet.subnetMask subnet.ipVersion = some true := by
    rw [hna, hmask, h4, isIpInSubnet_v4_spec (by omega) (by omega) (by omega) (by omega)]
    have hb := specContains_block k 21 1 (by norm_num)
    simp only [show (32 - 21 : ℕ) = 11 from rfl] at hb
    rw [hb]
  have hin2 : isIpInSubnet (numberToIpv4 ((k * 2 ^ 11 + 1500 : ℕ) : Int))
      subnet.networkAddress subnet.subnetMask subnet.ipVersion = some true := by
    rw [hna, hmask, h4, isIpInSubnet_v4_spec (by omega) (by omega) (by omega) (by omega)]
    have hb := specContains_block k 21 1500 (by norm_num)
    simp only [show (32 - 21 : ℕ) = 11 from rfl] at hb
    rw [hb]
  have hord : toInt32 ((k * 2 ^ 11 + 1 : ℕ) : Int) ≤ toInt32 ((k * 2 ^ 11 + 1500 : ℕ) : Int) := by
    rcases hsign with hlo | hhi
    · rw [toInt32_coe_low (by omega), toInt32_coe_low (by omega)]
      omega
    · rw [toInt32_coe_high (by omega) (by omega), toInt32_coe_high (by omega) (by omega)]
      omega
  have hsbe : startBeforeEnd subnet (numberToIpv4 ((k * 2 ^ 11 + 1 : ℕ) : Int))
      (numberToIpv4 ((k * 2 ^ 11 + 1500 : ℕ) : Int)) = some true := by
    rw [startBeforeEnd, h4]
    rw [if_neg (by simp : ¬ (IpVersion.IPv4 = IpVersion.IPv6))]
    rw [ipv4ToNumber_numberToIpv4, ipv4ToNumber_numberToIpv4]
    simp only []
    rw [decide_eq_true hord]
  have hrows : reservationRows subnet (numberToIpv4 ((k * 2 ^ 11 + 1 : ℕ) : Int))
      (numberToIpv4 ((k * 2 ^ 11 + 1500 : ℕ) : Int)) purpose resBy user baseId =
      some (resRowsV4 (resMk subnet purpose resBy user baseId) 1000 0
        (toInt32 ((k * 2 ^ 11 + 1 : ℕ) : Int)) (toInt32 ((k * 2 ^ 11 + 1500 : ℕ) : Int))) := by
    rw [reservationRows, h4]
    rw [if_neg (by simp : ¬ (IpVersion.IPv4 = IpVersion.IPv6))]
    rw [ipv4ToNumber_numberToIpv4, ipv4ToNumber_numberToIpv4]
  rw [createReservation, hin1, hin2] at hres
  simp only [] at hres
  rw [if_neg (by simp)] at hres
  rw [hsbe] at hres
  simp only [] at hres
  rw [if_neg (by simp)] at hres
  rw [show conflictingIps subnet (numberToIpv4 ((k * 2 ^ 11 + 1 : ℕ) : Int))
      (numberToIpv4 ((k * 2 ^ 11 + 1500 : ℕ) : Int)) [] = [] from rfl] at hres
  rw [if_neg (by simp)] at hres
  rw [hrows] at hres
  simp only [] at hres
  rw [ReservationResult.created.injEq] at hres
  obtain ⟨hresv, hstore'⟩ := hres
  rw [← hstore']
  have hocc := reservationStore_occ subnet purpose resBy user baseId k hk
  obtain ⟨halloc, -⟩ := autoAssignV4_firstFit k 21 freshId d u2
    (List.range' (k * 2 ^ 11 + 1) 1000)
    (createManySkipDup (resRowsV4 (resMk subnet purpose resBy user baseId) 1000 0
      (toInt32 ((k * 2 ^ 11 + 1 : ℕ) : Int)) (toInt32 ((k * 2 ^ 11 + 1500 : ℕ) : Int))) [])
    subnet h4 hna hmask (by norm_num) (by norm_num) hk hocc
  simp only [show (32 - 21 : ℕ) = 11 from rfl] at halloc
  have hfind : specFirstFit (k * 2 ^ 11 + 1) (2 ^ 11 - 2)
      (List.range' (k * 2 ^ 11 + 1) 1000) = some (k * 2 ^ 11 + 1 + 1000) :=
    specFirstFit_after_block (by norm_num)
  rw [show k * 2 ^ 11 + 1 + 1000 = k * 2 ^ 11 + 1001 from by omega] at hfind
  rw [hfind] at halloc
  refine ⟨?_, by omega, by omega⟩
  rw [halloc]
  rfl

theorem claim_C2_allocates_inside_reservation_witness :
    ((⟨3, jstr "10.0.0.0", 21, IpVersion.IPv4⟩ : Subnet).ipVersion = IpVersion.IPv4) ∧
    ((⟨3, jstr "10.0.0.0", 21, IpVersion.IPv4⟩ : Subnet).networkAddress =
      numberToIpv4 ((81920 * 2 ^ 11 : ℕ) : Int)) ∧
    ((⟨3, jstr "10.0.0.0", 21, IpVersion.IPv4⟩ : Subnet).subnetMask = 21) ∧
    81920 < 2 ^ 21 ∧
    (∀ resv store',
      createReservation ⟨3, jstr "10.0.0.0", 21, IpVersion.IPv4⟩
          (numberToIpv4 ((81920 * 2 ^ 11 + 1 : ℕ) : Int))
          (numberToIpv4 ((81920 * 2 ^ 11 + 1500 : ℕ) : Int)) none none none none [] 100 =
        .created resv store' →
      assignedIpOf (assignIpAddress ⟨3, jstr "10.0.0.0", 21, IpVersion.IPv4⟩ none
          emptyIpData none store' 9999) =
          some (numberToIpv4 ((81920 * 2 ^ 11 + 1001 : ℕ) : Int)) ∧
      81920 * 2 ^ 11 + 1 ≤ 81920 * 2 ^ 11 + 1001 ∧
      81920 * 2 ^ 11 + 1001 ≤ 81920 * 2 ^ 11 + 1500) :=
  ⟨rfl, by decide, rfl, by decide,
   claim_C2_allocates_inside_reservation 81920 9999 100 emptyIpData none none none none
     ⟨3, jstr "10.0.0.0", 21, IpVersion.IPv4⟩ rfl (by decide) rfl (by decide)⟩

end IPAM
